import Mathlib

/-!
Verification development for the cmsgpack library (msgpack.c / msgpack.h).

The C sources are shallowly embedded: byte buffers become `List Nat`
(each byte a natural number below 256), the `mp_node` struct becomes the
nested inductive `MpNode`, the 64-bit `number` union becomes a 64-bit
bit pattern stored as a `Nat`, and the cursor-based decoder becomes a
fueled function over the remaining byte list.  Machine arithmetic and
two's complement are made explicit with `% 2 ^ 64` and friends.
-/

namespace Cmsgpack

/-- Node kinds, mirroring `enum mp_type` in msgpack.h (MP_NIL = 0 is the
value a `calloc`-fresh node carries). -/
inductive MpType where
  | MP_NIL
  | MP_BOOL
  | MP_FLT
  | MP_INT
  | MP_STR
  | MP_BLOB
  | MP_EXT
  | MP_ARR
  | MP_MAP
deriving DecidableEq, Repr

open MpType

/-- The document tree node, mirroring `struct mp_node`.  Fields in order:
the kind tag, the 64-bit pattern of the `number` union (`intval` /
`uintval` / `doubleval` share these bits; for payload-carrying nodes it
holds the byte count), the owned payload buffer (`data`, `none` for a
NULL pointer), the extension type byte, the owned `key` node of a map
entry, and the sibling chain of children (`child` plus the `next` links,
represented as a list). -/
inductive MpNode where
  | mk (type : MpType) (numberBits : Nat) (data : Option (List Nat))
       (etype : Nat) (key : Option MpNode) (child : List MpNode)

/-- Kind tag of a node. -/
def MpNode.type : MpNode → MpType
  | ⟨t, _, _, _, _, _⟩ => t

/-- The 64-bit pattern held in the node's `number` union. -/
def MpNode.numberBits : MpNode → Nat
  | ⟨_, n, _, _, _, _⟩ => n

/-- Owned payload buffer of the node (`none` models a NULL `data`). -/
def MpNode.data : MpNode → Option (List Nat)
  | ⟨_, _, d, _, _, _⟩ => d

/-- Extension type byte of the node. -/
def MpNode.etype : MpNode → Nat
  | ⟨_, _, _, e, _, _⟩ => e

/-- Key node attached to a map-entry value node. -/
def MpNode.key : MpNode → Option MpNode
  | ⟨_, _, _, _, k, _⟩ => k

/-- Children of a container node, in sibling order. -/
def MpNode.child : MpNode → List MpNode
  | ⟨_, _, _, _, _, c⟩ => c

/-- A freshly `calloc`ed node (`mp_node_new`): every field zero, hence
kind `MP_NIL`, no data, no key, no children. -/
def mp_node_new : MpNode := ⟨MP_NIL, 0, none, 0, none, []⟩

/-- Model of `mp_push_data`: store a `count`-byte copy of `data` on the
node and record the count in the number slot, setting the kind.  The
`take count` expresses that exactly `count` bytes are read from the
source buffer (the library always passes the buffer's true length). -/
def mp_push_data (L : MpNode) (data : List Nat) (count : Nat) (t : MpType) : MpNode :=
  ⟨t, count, some (data.take count), L.etype, L.key, L.child⟩

/-- Replace the `key` field of a node (the assignment `child->key = k`
performed by the map decoder). -/
def MpNode.setKey (L : MpNode) (k : MpNode) : MpNode :=
  ⟨L.type, L.numberBits, L.data, L.etype, some k, L.child⟩

/-! ## Two's-complement helpers -/

/-- Two's-complement 64-bit pattern of a signed integer (`int64_t`). -/
def toU64 (n : Int) : Nat := (n % (2 ^ 64)).toNat

/-- Sign extension of an 8-bit byte into a 64-bit pattern
(the `(int8_t)` cast stored into the 64-bit union). -/
def sx8 (v : Nat) : Nat := if v < 0x80 then v else 2 ^ 64 - 0x100 + v

/-- Sign extension of a 16-bit value into a 64-bit pattern. -/
def sx16 (v : Nat) : Nat := if v < 0x8000 then v else 2 ^ 64 - 0x10000 + v

/-- Sign extension of a 32-bit value into a 64-bit pattern. -/
def sx32 (v : Nat) : Nat := if v < 0x80000000 then v else 2 ^ 64 - 0x100000000 + v

/-! ## Low level encoders (mp_encode_*) -/

/-- Bit-by-bit population count over `k` low bits. -/
def popcntAux : Nat → Nat → Nat
  | 0, _ => 0
  | k + 1, n => n % 2 + popcntAux k (n / 2)

/-- Population count of a 64-bit value (`__builtin_popcount` applied to
the payload length, a `size_t`). -/
def popcnt (n : Nat) : Nat := popcntAux 64 n

/-- Bit-by-bit trailing-zero count over `k` low bits. -/
def ctzAux : Nat → Nat → Nat
  | 0, _ => 0
  | k + 1, n => if n % 2 = 1 then 0 else ctzAux k (n / 2) + 1

/-- Count of trailing zero bits of a 64-bit value (`__builtin_ctz`); the
source only applies it to nonzero values. -/
def ctz (n : Nat) : Nat := ctzAux 64 n

/-- Model of `mp_encode_bytes`: header for a Str payload of length `len`
followed by the payload bytes. -/
def mp_encode_bytes (s : List Nat) (len : Nat) : List Nat :=
  (if len < 32 then
    [0xa0 ||| (len &&& 0xff)]
  else if len ≤ 0xff then
    [0xd9, len]
  else if len ≤ 0xffff then
    [0xda, (len &&& 0xff00) >>> 8, len &&& 0xff]
  else
    [0xdb, (len &&& 0xff000000) >>> 24, (len &&& 0xff0000) >>> 16,
     (len &&& 0xff00) >>> 8, len &&& 0xff]) ++ s.take len

/-- Model of `mp_encode_blob`: header for a Bin payload of length `len`
followed by the payload bytes. -/
def mp_encode_blob (s : List Nat) (len : Nat) : List Nat :=
  (if len ≤ 0xff then
    [0xc4, len]
  else if len ≤ 0xffff then
    [0xc5, (len &&& 0xff00) >>> 8, len &&& 0xff]
  else
    [0xc6, (len &&& 0xff000000) >>> 24, (len &&& 0xff0000) >>> 16,
     (len &&& 0xff00) >>> 8, len &&& 0xff]) ++ s.take len

/-- Model of `mp_encode_ext`: fixext header when the length is a power of
two at most 16, otherwise ext 8/16/32 with the etype byte between header
and length. -/
def mp_encode_ext (etype : Nat) (s : List Nat) (len : Nat) : List Nat :=
  (if len ≤ 16 ∧ popcnt len = 1 then
    [0xd4 + ctz len, etype]
  else if len ≤ 0xff then
    [0xc7, etype, len]
  else if len ≤ 0xffff then
    [0xc8, etype, (len &&& 0xff00) >>> 8, len &&& 0xff]
  else
    [0xc9, etype, (len &&& 0xff000000) >>> 24, (len &&& 0xff0000) >>> 16,
     (len &&& 0xff00) >>> 8, len &&& 0xff]) ++ s.take len

/-- Model of `mp_encode_int`: choose the shortest integer family as in the
C branch ladder; bytes are extracted from the 64-bit two's-complement
pattern exactly as the C shifts and masks do. -/
def mp_encode_int (n : Int) : List Nat :=
  let u := toU64 n
  if 0 ≤ n then
    if n ≤ 127 then
      [u &&& 0x7f]
    else if n ≤ 0xff then
      [0xcc, u &&& 0xff]
    else if n ≤ 0xffff then
      [0xcd, (u &&& 0xff00) >>> 8, u &&& 0xff]
    else if n ≤ 0xffffffff then
      [0xce, (u &&& 0xff000000) >>> 24, (u &&& 0xff0000) >>> 16,
       (u &&& 0xff00) >>> 8, u &&& 0xff]
    else
      [0xcf, (u &&& 0xff00000000000000) >>> 56, (u &&& 0xff000000000000) >>> 48,
       (u &&& 0xff0000000000) >>> 40, (u &&& 0xff00000000) >>> 32,
       (u &&& 0xff000000) >>> 24, (u &&& 0xff0000) >>> 16,
       (u &&& 0xff00) >>> 8, u &&& 0xff]
  else
    if -32 ≤ n then
      [u &&& 0xff]
    else if -128 ≤ n then
      [0xd0, u &&& 0xff]
    else if -32768 ≤ n then
      [0xd1, (u &&& 0xff00) >>> 8, u &&& 0xff]
    else if -2147483648 ≤ n then
      [0xd2, (u &&& 0xff000000) >>> 24, (u &&& 0xff0000) >>> 16,
       (u &&& 0xff00) >>> 8, u &&& 0xff]
    else
      [0xd3, (u &&& 0xff00000000000000) >>> 56, (u &&& 0xff000000000000) >>> 48,
       (u &&& 0xff0000000000) >>> 40, (u &&& 0xff00000000) >>> 32,
       (u &&& 0xff000000) >>> 24, (u &&& 0xff0000) >>> 16,
       (u &&& 0xff00) >>> 8, u &&& 0xff]

/-- Model of `mp_encode_array`: array header for `n` elements. -/
def mp_encode_array (n : Nat) : List Nat :=
  if n ≤ 15 then
    [0x90 ||| (n &&& 0xf)]
  else if n ≤ 65535 then
    [0xdc, (n &&& 0xff00) >>> 8, n &&& 0xff]
  else
    [0xdd, (n &&& 0xff000000) >>> 24, (n &&& 0xff0000) >>> 16,
     (n &&& 0xff00) >>> 8, n &&& 0xff]

/-- Model of `mp_encode_map`: map header for `n` pairs. -/
def mp_encode_map (n : Nat) : List Nat :=
  if n ≤ 15 then
    [0x80 ||| (n &&& 0xf)]
  else if n ≤ 65535 then
    [0xde, (n &&& 0xff00) >>> 8, n &&& 0xff]
  else
    [0xdf, (n &&& 0xff000000) >>> 24, (n &&& 0xff0000) >>> 16,
     (n &&& 0xff00) >>> 8, n &&& 0xff]

/-! ## IEEE 754 bit-level conversions

`mp_encode_double` and the `0xCA` decode path convert between binary32
and binary64.  Both directions are modelled on the bit patterns: the
widening direction is exact; the narrowing direction applies
round-to-nearest-even, the rounding mode of the C float conversion. -/

/-- Floor of the base-2 logarithm over `k` halving steps. -/
def log2Aux : Nat → Nat → Nat
  | 0, _ => 0
  | k + 1, n => if 2 ≤ n then log2Aux k (n / 2) + 1 else 0

/-- Floor of the base-2 logarithm of a 64-bit value (position of its
highest set bit). -/
def nlog2 (n : Nat) : Nat := log2Aux 64 n

/-- Exact widening of a binary32 bit pattern to the binary64 pattern of
the same value (the C conversion `(double)f`).  NaN payloads are widened
by the usual mantissa left shift. -/
def f32ToF64Bits (b : Nat) : Nat :=
  let s := (b >>> 31) &&& 1
  let e := (b >>> 23) &&& 0xff
  let m := b &&& 0x7fffff
  if e = 0xff then
    (s <<< 63) ||| (0x7ff <<< 52) ||| (m <<< 29)
  else if e = 0 then
    if m = 0 then s <<< 63
    else
      let k := nlog2 m
      (s <<< 63) ||| ((k + 874) <<< 52) ||| ((m - 2 ^ k) <<< (52 - k))
  else
    (s <<< 63) ||| ((e + 896) <<< 52) ||| (m <<< 29)

/-- Round-to-nearest-even right shift by `sh` bits. -/
def rneShift (x sh : Nat) : Nat :=
  if sh = 0 then x
  else
    let q := x >>> sh
    let r := x % 2 ^ sh
    let h := 2 ^ (sh - 1)
    if h < r ∨ (r = h ∧ q % 2 = 1) then q + 1 else q

/-- Narrowing of a binary64 bit pattern to binary32 with
round-to-nearest-even (the C conversion `float f = d`), including
overflow to infinity and underflow into subnormals/zero. -/
def f64ToF32Bits (b : Nat) : Nat :=
  let s := (b >>> 63) &&& 1
  let e := (b >>> 52) &&& 0x7ff
  let m := b &&& 0xfffffffffffff
  if e = 0x7ff then
    (s <<< 31) ||| (0xff <<< 23) ||| (if m = 0 then 0 else max 1 (m >>> 29))
  else
    let sig := if e = 0 then m else 2 ^ 52 + m
    if sig = 0 then s <<< 31
    else
      let exp2 : Int := (if e = 0 then 1 else (e : Int)) - 1075
      let E : Int := nlog2 sig + exp2
      if E < -126 then
        let t : Int := exp2 + 149
        let N := if 0 ≤ t then sig <<< t.toNat else rneShift sig (-t).toNat
        if 2 ^ 23 ≤ N then (s <<< 31) ||| (1 <<< 23) ||| (N - 2 ^ 23)
        else (s <<< 31) ||| N
      else
        let j : Int := E - 23
        let N := if j ≤ exp2 then sig <<< (exp2 - j).toNat else rneShift sig (j - exp2).toNat
        let N2 := if N = 2 ^ 24 then 2 ^ 23 else N
        let E2 := if N = 2 ^ 24 then E + 1 else E
        if 127 < E2 then (s <<< 31) ||| (0xff <<< 23)
        else (s <<< 31) ||| ((E2 + 127).toNat <<< 23) ||| (N2 - 2 ^ 23)

/-- Whether a binary64 bit pattern is a NaN. -/
def isNaN64 (b : Nat) : Bool :=
  (b >>> 52) &&& 0x7ff = 0x7ff ∧ b &&& 0xfffffffffffff ≠ 0

/-- Whether a binary64 bit pattern is a zero of either sign. -/
def isZero64 (b : Nat) : Bool := b &&& 0x7fffffffffffffff = 0

/-- IEEE numeric equality `==` on binary64 bit patterns, transcribing
the spec phrase "the value equals its round-trip through float32
exactly": a NaN compares equal to nothing, the two signed zeros compare
equal to each other, and all other values are equal exactly when their
patterns are. -/
def f64NumEq (a b : Nat) : Bool :=
  !(isNaN64 a) && !(isNaN64 b) && (a == b || (isZero64 a && isZero64 b))

/-- Big-endian byte list of the low `k` bytes of `v` (what `memcpy`
followed by `memrevifle` produces for a float payload). -/
def beBytes : Nat → Nat → List Nat
  | 0, _ => []
  | k + 1, v => ((v >>> (8 * k)) &&& 0xff) :: beBytes k v

/-- Model of `mp_encode_double` on the binary64 bit pattern `d`.  The C
test `d == (double)f` (IEEE numeric equality) is expressed on patterns:
for non-NaN values it coincides with bit equality of `d` with the
round trip through binary32 (signed zeros keep their sign through both
conversions), and a NaN never compares equal. -/
def mp_encode_double (d : Nat) : List Nat :=
  let f := f64ToF32Bits d
  if ¬ isNaN64 d ∧ f32ToF64Bits f = d then
    0xca :: beBytes 4 f
  else
    0xcb :: beBytes 8 d

/-- Signed reading of a 64-bit pattern (the `intval` view of the union). -/
def i64OfBits (u : Nat) : Int :=
  if u < 2 ^ 63 then (u : Int) else (u : Int) - 2 ^ 64

/-! ## Whole-tree encoding (mp_encode_value) -/

mutual

/-- Model of `mp_encode_value`: serialize one node.  Container sizes use
`msgpack_get_array_size`, which counts the sibling chain. -/
def mp_encode_value : MpNode → List Nat
  | ⟨MP_NIL, _, _, _, _, _⟩ => [0xc0]
  | ⟨MP_BOOL, num, _, _, _, _⟩ => if num ≠ 0 then [0xc3] else [0xc2]
  | ⟨MP_INT, num, _, _, _, _⟩ => mp_encode_int (i64OfBits num)
  | ⟨MP_FLT, num, _, _, _, _⟩ => mp_encode_double num
  | ⟨MP_BLOB, num, d, _, _, _⟩ => mp_encode_blob (d.getD []) num
  | ⟨MP_STR, num, d, _, _, _⟩ => mp_encode_bytes (d.getD []) num
  | ⟨MP_EXT, num, d, et, _, _⟩ => mp_encode_ext et (d.getD []) num
  | ⟨MP_ARR, _, _, _, _, children⟩ =>
      mp_encode_array children.length ++ mp_encode_list children
  | ⟨MP_MAP, _, _, _, _, children⟩ =>
      mp_encode_map children.length ++ mp_encode_pairs children

/-- Serialize an array's children in order. -/
def mp_encode_list : List MpNode → List Nat
  | [] => []
  | n :: ns => mp_encode_value n ++ mp_encode_list ns

/-- Serialize a map's children in order, each preceded by its key; a
node with no key contributes no key bytes (`mp_encode_value(NULL)`
returns without output). -/
def mp_encode_pairs : List MpNode → List Nat
  | [] => []
  | ⟨t, num, d, et, none, c⟩ :: ns =>
      mp_encode_value ⟨t, num, d, et, none, c⟩ ++ mp_encode_pairs ns
  | ⟨t, num, d, et, some k, c⟩ :: ns =>
      mp_encode_value k ++ mp_encode_value ⟨t, num, d, et, some k, c⟩ ++
        mp_encode_pairs ns

end

/-! ## Decoding (mp_decode_value and helpers)

The cursor `mp_cur` is modelled by the list of remaining input bytes;
`mp_cur_need(c, k)` becomes a length test and `mp_cur_consume(c, k)` a
`drop`.  The C recursion terminates because every value consumes at
least one byte; the model makes this explicit with a fuel parameter
(`.out` is returned on fuel exhaustion, and is proved unreachable for
fuel exceeding the input length). -/

/-- Cursor error states (`MP_CUR_ERROR_EOF`, `MP_CUR_ERROR_BADFMT`) plus
the fuel-exhaustion artifact of the embedding. -/
inductive MpErr where
  | eof
  | badfmt
  | out
deriving DecidableEq, Repr

/-- Byte of the input at offset `i` (`c->p[i]`); reads are always guarded
by a `need` length test in the source, so the default is never used on
the paths the library takes. -/
def byteAt (l : List Nat) (i : Nat) : Nat := l.getD i 0

/-- Model of `mp_decode_array`'s child loop: decode `count` values with
the supplied single-value decoder, collecting the sibling chain. -/
def mp_decode_array (dv : List Nat → Except MpErr (MpNode × List Nat)) :
    Nat → List Nat → Except MpErr (List MpNode × List Nat)
  | 0, input => .ok ([], input)
  | count + 1, input =>
    match dv input with
    | .error e => .error e
    | .ok (n, rest) =>
      match mp_decode_array dv count rest with
      | .error e => .error e
      | .ok (ns, rest2) => .ok (n :: ns, rest2)

/-- Model of `mp_decode_hash`'s pair loop: decode `count` key/value
pairs, attaching each key to its value node. -/
def mp_decode_hash (dv : List Nat → Except MpErr (MpNode × List Nat)) :
    Nat → List Nat → Except MpErr (List MpNode × List Nat)
  | 0, input => .ok ([], input)
  | count + 1, input =>
    match dv input with
    | .error e => .error e
    | .ok (k, rest) =>
      match dv rest with
      | .error e => .error e
      | .ok (v, rest2) =>
        match mp_decode_hash dv count rest2 with
        | .error e => .error e
        | .ok (ps, rest3) => .ok (v.setKey k :: ps, rest3)

/-! Each C `switch` case body becomes a small named helper so the
dispatch below stays readable; every helper mirrors its case verbatim
(length tests, byte offsets, consumes). -/

/-- Case `0xcc` (uint 8). -/
def mp_decode_uint8 (input : List Nat) : Except MpErr (MpNode × List Nat) :=
  if input.length < 2 then .error .eof
  else .ok (⟨MP_INT, byteAt input 1, none, 0, none, []⟩, input.drop 2)

/-- Case `0xd0` (int 8). -/
def mp_decode_int8 (input : List Nat) : Except MpErr (MpNode × List Nat) :=
  if input.length < 2 then .error .eof
  else .ok (⟨MP_INT, sx8 (byteAt input 1), none, 0, none, []⟩, input.drop 2)

/-- Case `0xcd` (uint 16). -/
def mp_decode_uint16 (input : List Nat) : Except MpErr (MpNode × List Nat) :=
  if input.length < 3 then .error .eof
  else .ok (⟨MP_INT, (byteAt input 1 <<< 8) ||| byteAt input 2, none, 0, none, []⟩,
            input.drop 3)

/-- Case `0xd1` (int 16). -/
def mp_decode_int16 (input : List Nat) : Except MpErr (MpNode × List Nat) :=
  if input.length < 3 then .error .eof
  else .ok (⟨MP_INT, sx16 ((byteAt input 1 <<< 8) ||| byteAt input 2), none, 0, none, []⟩,
            input.drop 3)

/-- Case `0xce` (uint 32). -/
def mp_decode_uint32 (input : List Nat) : Except MpErr (MpNode × List Nat) :=
  if input.length < 5 then .error .eof
  else .ok (⟨MP_INT, (byteAt input 1 <<< 24) ||| (byteAt input 2 <<< 16) |||
                     (byteAt input 3 <<< 8) ||| byteAt input 4, none, 0, none, []⟩,
            input.drop 5)

/-- Case `0xd2` (int 32). -/
def mp_decode_int32 (input : List Nat) : Except MpErr (MpNode × List Nat) :=
  if input.length < 5 then .error .eof
  else .ok (⟨MP_INT, sx32 ((byteAt input 1 <<< 24) ||| (byteAt input 2 <<< 16) |||
                           (byteAt input 3 <<< 8) ||| byteAt input 4), none, 0, none, []⟩,
            input.drop 5)

/-- Cases `0xcf` / `0xd3` (uint 64 / int 64): both assemble the same
eight big-endian bytes into the 64-bit union. -/
def mp_decode_word64 (input : List Nat) : Except MpErr (MpNode × List Nat) :=
  if input.length < 9 then .error .eof
  else .ok (⟨MP_INT, (byteAt input 1 <<< 56) ||| (byteAt input 2 <<< 48) |||
                     (byteAt input 3 <<< 40) ||| (byteAt input 4 <<< 32) |||
                     (byteAt input 5 <<< 24) ||| (byteAt input 6 <<< 16) |||
                     (byteAt input 7 <<< 8) ||| byteAt input 8, none, 0, none, []⟩,
            input.drop 9)

/-- Case `0xca` (float): the 4 big-endian payload bytes are the binary32
pattern, stored widened to binary64. -/
def mp_decode_flt32 (input : List Nat) : Except MpErr (MpNode × List Nat) :=
  if input.length < 5 then .error .eof
  else .ok (⟨MP_FLT, f32ToF64Bits ((byteAt input 1 <<< 24) ||| (byteAt input 2 <<< 16) |||
                                   (byteAt input 3 <<< 8) ||| byteAt input 4),
             none, 0, none, []⟩, input.drop 5)

/-- Case `0xcb` (double). -/
def mp_decode_flt64 (input : List Nat) : Except MpErr (MpNode × List Nat) :=
  if input.length < 9 then .error .eof
  else .ok (⟨MP_FLT, (byteAt input 1 <<< 56) ||| (byteAt input 2 <<< 48) |||
                     (byteAt input 3 <<< 40) ||| (byteAt input 4 <<< 32) |||
                     (byteAt input 5 <<< 24) ||| (byteAt input 6 <<< 16) |||
                     (byteAt input 7 <<< 8) ||| byteAt input 8, none, 0, none, []⟩,
            input.drop 9)

/-- Cases `0xd4`–`0xd8` (fixext 1/2/4/8/16): length `1 << (b - 0xd4)`,
one etype byte, then the payload. -/
def mp_decode_fixext (b : Nat) (input : List Nat) : Except MpErr (MpNode × List Nat) :=
  if input.length < 2 then .error .eof
  else
    let l := 1 <<< (b - 0xd4)
    let et := byteAt input 1
    if input.length < 2 + l then .error .eof
    else .ok (mp_push_data ⟨MP_NIL, 0, none, et, none, []⟩ (input.drop 2) l MP_EXT,
              input.drop (2 + l))

/-- Cases `0xc4` / `0xd9` (bin 8 / str 8): the kind comes from bit 0x10
of the header byte, tested before the header is consumed. -/
def mp_decode_str8 (b : Nat) (input : List Nat) : Except MpErr (MpNode × List Nat) :=
  if input.length < 2 then .error .eof
  else
    let l := byteAt input 1
    if input.length < 2 + l then .error .eof
    else .ok (mp_push_data mp_node_new (input.drop 2) l
                (if b &&& 0x10 ≠ 0 then MP_STR else MP_BLOB),
              input.drop (2 + l))

/-- Cases `0xc5` / `0xda` (bin 16 / str 16). -/
def mp_decode_str16 (b : Nat) (input : List Nat) : Except MpErr (MpNode × List Nat) :=
  if input.length < 3 then .error .eof
  else
    let l := (byteAt input 1 <<< 8) ||| byteAt input 2
    if input.length < 3 + l then .error .eof
    else .ok (mp_push_data mp_node_new (input.drop 3) l
                (if b &&& 0x10 ≠ 0 then MP_STR else MP_BLOB),
              input.drop (3 + l))

/-- Cases `0xc6` / `0xdb` (bin 32 / str 32): this branch consumes the
five header bytes BEFORE evaluating `c->p[0] & 0x10`, so the Str/Blob
decision reads the first payload byte, not the header. -/
def mp_decode_str32 (input : List Nat) : Except MpErr (MpNode × List Nat) :=
  if input.length < 5 then .error .eof
  else
    let l := (byteAt input 1 <<< 24) ||| (byteAt input 2 <<< 16) |||
             (byteAt input 3 <<< 8) ||| byteAt input 4
    let rest := input.drop 5
    if rest.length < l then .error .eof
    else .ok (mp_push_data mp_node_new rest l
                (if byteAt rest 0 &&& 0x10 ≠ 0 then MP_STR else MP_BLOB),
              rest.drop l)

/-- Case `0xc7` (ext 8): etype byte at offset 1, length at offset 2. -/
def mp_decode_ext8 (input : List Nat) : Except MpErr (MpNode × List Nat) :=
  if input.length < 3 then .error .eof
  else
    let l := byteAt input 2
    let et := byteAt input 1
    if input.length < 3 + l then .error .eof
    else .ok (mp_push_data ⟨MP_NIL, 0, none, et, none, []⟩ (input.drop 3) l MP_EXT,
              input.drop (3 + l))

/-- Case `0xc8` (ext 16): etype byte at offset 1, length at offsets 2–3. -/
def mp_decode_ext16 (input : List Nat) : Except MpErr (MpNode × List Nat) :=
  if input.length < 4 then .error .eof
  else
    let l := (byteAt input 2 <<< 8) ||| byteAt input 3
    let et := byteAt input 1
    if input.length < 4 + l then .error .eof
    else .ok (mp_push_data ⟨MP_NIL, 0, none, et, none, []⟩ (input.drop 4) l MP_EXT,
              input.drop (4 + l))

/-- Case `0xc9` (ext 32): the C code reads the big-endian length from
bytes 1–4 — the same byte 1 it also stores as the etype — and then
consumes six header bytes. -/
def mp_decode_ext32 (input : List Nat) : Except MpErr (MpNode × List Nat) :=
  if input.length < 6 then .error .eof
  else
    let l := (byteAt input 1 <<< 24) ||| (byteAt input 2 <<< 16) |||
             (byteAt input 3 <<< 8) ||| byteAt input 4
    let et := byteAt input 1
    let rest := input.drop 6
    if rest.length < l then .error .eof
    else .ok (mp_push_data ⟨MP_NIL, 0, none, et, none, []⟩ rest l MP_EXT,
              rest.drop l)

/-- Fixstr case (`0xa0`-`0xbf`): length in the low five bits of the
header. -/
def mp_decode_fixstr (b : Nat) (input : List Nat) : Except MpErr (MpNode × List Nat) :=
  let l := b &&& 0x1f
  if input.length < 1 + l then .error .eof
  else .ok (mp_push_data mp_node_new (input.drop 1) l MP_STR, input.drop (1 + l))

/-- Wrap a decoded child chain as an `MP_ARR` node (the caller
`mp_decode_array` sets `L->type` and hangs the chain off `L->child`). -/
def mp_decode_arrnode (dv : List Nat → Except MpErr (MpNode × List Nat))
    (count : Nat) (input : List Nat) : Except MpErr (MpNode × List Nat) :=
  match mp_decode_array dv count input with
  | .error e => .error e
  | .ok (cs, rest) => .ok (⟨MP_ARR, 0, none, 0, none, cs⟩, rest)

/-- Wrap a decoded pair chain as an `MP_MAP` node. -/
def mp_decode_mapnode (dv : List Nat → Except MpErr (MpNode × List Nat))
    (count : Nat) (input : List Nat) : Except MpErr (MpNode × List Nat) :=
  match mp_decode_hash dv count input with
  | .error e => .error e
  | .ok (cs, rest) => .ok (⟨MP_MAP, 0, none, 0, none, cs⟩, rest)

/-- Model of `mp_decode_value`: parse one value from the front of the
input, returning the node and the unconsumed tail.  The dispatch and
every case body mirror the C switch (including its slips: see
`mp_decode_str32` and `mp_decode_ext32`).  The fuel decreases on each
recursive call and is proved sufficient whenever it exceeds the input
length. -/
def mp_decode_value : Nat → List Nat → Except MpErr (MpNode × List Nat)
  | 0, _ => .error .out
  | fuel + 1, input =>
    match input with
    | [] => .error .eof
    | b :: _ =>
      if b = 0xcc then mp_decode_uint8 input
      else if b = 0xd0 then mp_decode_int8 input
      else if b = 0xcd then mp_decode_uint16 input
      else if b = 0xd1 then mp_decode_int16 input
      else if b = 0xce then mp_decode_uint32 input
      else if b = 0xd2 then mp_decode_int32 input
      else if b = 0xcf then mp_decode_word64 input
      else if b = 0xd3 then mp_decode_word64 input
      else if b = 0xc0 then .ok (⟨MP_NIL, 0, none, 0, none, []⟩, input.drop 1)
      else if b = 0xc2 ∨ b = 0xc3 then
        .ok (⟨MP_BOOL, b - 0xc2, none, 0, none, []⟩, input.drop 1)
      else if b = 0xca then mp_decode_flt32 input
      else if b = 0xcb then mp_decode_flt64 input
      else if 0xd4 ≤ b ∧ b ≤ 0xd8 then mp_decode_fixext b input
      else if b = 0xc4 ∨ b = 0xd9 then mp_decode_str8 b input
      else if b = 0xc5 ∨ b = 0xda then mp_decode_str16 b input
      else if b = 0xc6 ∨ b = 0xdb then mp_decode_str32 input
      else if b = 0xc7 then mp_decode_ext8 input
      else if b = 0xc8 then mp_decode_ext16 input
      else if b = 0xc9 then mp_decode_ext32 input
      else if b = 0xdc then
        if input.length < 3 then .error .eof
        else mp_decode_arrnode (mp_decode_value fuel)
               ((byteAt input 1 <<< 8) ||| byteAt input 2) (input.drop 3)
      else if b = 0xdd then
        if input.length < 5 then .error .eof
        else mp_decode_arrnode (mp_decode_value fuel)
               ((byteAt input 1 <<< 24) ||| (byteAt input 2 <<< 16) |||
                (byteAt input 3 <<< 8) ||| byteAt input 4) (input.drop 5)
      else if b = 0xde then
        if input.length < 3 then .error .eof
        else mp_decode_mapnode (mp_decode_value fuel)
               ((byteAt input 1 <<< 8) ||| byteAt input 2) (input.drop 3)
      else if b = 0xdf then
        if input.length < 5 then .error .eof
        else mp_decode_mapnode (mp_decode_value fuel)
               ((byteAt input 1 <<< 24) ||| (byteAt input 2 <<< 16) |||
                (byteAt input 3 <<< 8) ||| byteAt input 4) (input.drop 5)
      else if b &&& 0x80 = 0 then
        .ok (⟨MP_INT, b, none, 0, none, []⟩, input.drop 1)
      else if b &&& 0xe0 = 0xe0 then
        .ok (⟨MP_INT, sx8 b, none, 0, none, []⟩, input.drop 1)
      else if b &&& 0xe0 = 0xa0 then
        mp_decode_fixstr b input
      else if b &&& 0xf0 = 0x90 then
        mp_decode_arrnode (mp_decode_value fuel) (b &&& 0xf) (input.drop 1)
      else if b &&& 0xf0 = 0x80 then
        mp_decode_mapnode (mp_decode_value fuel) (b &&& 0xf) (input.drop 1)
      else
        .error .badfmt


/-! ## Top-level codec (mp_unpack / msgpack_unpack / msgpack_pack) -/

/-- Model of the `mp_unpack` loop: while bytes remain, decode one
top-level value; each pass increments the returned count and chains a
new sibling root.  Each successful decode consumes at least one byte, so
fuel equal to the input length suffices (proved below). -/
def mp_unpackLoop : Nat → List Nat → Except MpErr (Nat × List MpNode)
  | _, [] => .ok (0, [])
  | 0, _ :: _ => .error .out
  | fuel + 1, b :: tl =>
    match mp_decode_value ((b :: tl).length + 1) (b :: tl) with
    | .error e => .error e
    | .ok (n, rest) =>
      match mp_unpackLoop fuel rest with
      | .error e => .error e
      | .ok (cnt, roots) => .ok (cnt + 1, n :: roots)

/-- Return code of `mp_unpack`: the count of decoded top-level values on
success, minus the cursor error code on failure.  The `.out` artifact is
mapped outside the C codes and proved unreachable. -/
def errCode : MpErr → Int
  | .eof => 1
  | .badfmt => 2
  | .out => 3

/-- Model of `msgpack_unpack`: run the unpack loop; when the return code
is not positive the tree is released and the caller receives no tree
(`none`). -/
def msgpack_unpack (s : List Nat) : Int × Option (List MpNode) :=
  match mp_unpackLoop s.length s with
  | .error e => (-(errCode e), none)
  | .ok (cnt, roots) => if cnt = 0 then ((cnt : Int), none) else ((cnt : Int), some roots)

/-! ## Builders (msgpack_create_*) -/

/-- Model of `msgpack_create_string` (takes the NUL-free byte list of the
C string; `strlen` is its length). -/
def msgpack_create_string (s : List Nat) : MpNode :=
  mp_push_data mp_node_new s s.length MP_STR

/-- Model of `msgpack_create_blob`. -/
def msgpack_create_blob (blob : List Nat) (len : Nat) : MpNode :=
  mp_push_data mp_node_new blob len MP_BLOB

/-- Model of `msgpack_create_integer` (stores the two's-complement
pattern in the number union). -/
def msgpack_create_integer (num : Int) : MpNode :=
  ⟨MP_INT, toU64 num, none, 0, none, []⟩

/-! ## Tree operations -/

/-- Model of `msgpack_get_array_size`: length of the sibling chain. -/
def msgpack_get_array_size (L : MpNode) : Nat := L.child.length

/-- The walk of `msgpack_get_array_item`: `while (c && idx > 0) idx--,
c = c->next; return c;`. -/
def getArrayLoop : List MpNode → Int → Option MpNode
  | [], _ => none
  | c :: rest, idx => if 0 < idx then getArrayLoop rest (idx - 1) else some c

/-- Model of `msgpack_get_array_item`. -/
def msgpack_get_array_item (L : MpNode) (idx : Int) : Option MpNode :=
  getArrayLoop L.child idx

/-- ASCII lowercasing of one byte (`tolower` in the C locale), as used by
`strcasecmp`. -/
def asciiToLower (b : Nat) : Nat := if 65 ≤ b ∧ b ≤ 90 then b + 32 else b

/-- The C-string view of a stored payload: bytes up to the first NUL
(`mp_push_data` always appends a terminating zero byte). -/
def cstr (l : List Nat) : List Nat := l.takeWhile (fun b => b ≠ 0)

/-- Whether `strcasecmp` of the two C strings returns 0: equality after
ASCII lowercasing. -/
def strcaseeq (a b : List Nat) : Bool :=
  (cstr a).map asciiToLower = (cstr b).map asciiToLower

/-- The search loop shared by `msgpack_get_map_item`,
`msgpack_detach_item_from_map` and `msgpack_replace_item_in_map`:
advance `while (c && c->key && c->key->type != MP_STR &&
strcasecmp(c->key->data, name))`; the exact short-circuit order of the
C condition is preserved (in particular `strcasecmp` only runs when the
key's kind is not `MP_STR`, on whatever `data` that key carries —
`getD []` stands for the NULL-pointer read the C would perform). -/
def mapFindLoop (name : List Nat) : List MpNode → Option MpNode
  | [] => none
  | c :: cs =>
    match c.key with
    | none => some c
    | some k =>
      if k.type = MP_STR then some c
      else if strcaseeq (k.data.getD []) name then some c
      else mapFindLoop name cs

/-- Model of `msgpack_get_map_item`. -/
def msgpack_get_map_item (map : MpNode) (name : List Nat) : Option MpNode :=
  mapFindLoop name map.child

/-- The index at which the same loop stops, as computed by
`msgpack_detach_item_from_map` before it delegates to
`msgpack_detach_item_from_array` with that index. -/
def mapFindIdx (name : List Nat) : List MpNode → Nat → Option Nat
  | [], _ => none
  | c :: cs, i =>
    match c.key with
    | none => some i
    | some k =>
      if k.type = MP_STR then some i
      else if strcaseeq (k.data.getD []) name then some i
      else mapFindIdx name cs (i + 1)

/-! ## Deep copy (msgpack_duplicate)

The C routine copies the kind, copies the number slot only for
`MP_INT` / `MP_FLT` nodes, and — when the source carries a payload —
calls `mp_push_data(item, item->data, item->number.intval, item->type)`
on the SOURCE node `item` instead of `newitem`: the copy's `data` stays
NULL and its length slot stays 0 (and the source's buffer is replaced by
a fresh allocation, leaking the old one).  The `etype` byte is never
copied.  The model returns the node the function returns. -/

mutual

/-- Model of `msgpack_duplicate`: the node actually returned by the C
code (see the block comment above for the fields it fails to fill). -/
def msgpack_duplicate : MpNode → Bool → MpNode
  | ⟨t, num, _, _, key, child⟩, recurse =>
    ⟨t,
     if t = MP_INT then num else if t = MP_FLT then num else 0,
     none,
     0,
     (match key with
      | none => none
      | some k => some (msgpack_duplicate k false)),
     if recurse then msgpack_duplicate_children child else []⟩

/-- Clone each child in order with `recurse = 1`. -/
def msgpack_duplicate_children : List MpNode → List MpNode
  | [] => []
  | c :: cs => msgpack_duplicate c true :: msgpack_duplicate_children cs

end

/-! ## Bit-arithmetic helper lemmas -/

theorem shiftRight_and_distrib (a b k : Nat) : (a &&& b) >>> k = (a >>> k) &&& (b >>> k) := by
  apply Nat.eq_of_testBit_eq
  intro i
  simp [Nat.testBit_shiftRight, Nat.testBit_and, Nat.add_comm]

theorem and_mask_byte (u k : Nat) : (u &&& (255 <<< k)) >>> k = u / 2 ^ k % 256 := by
  rw [shiftRight_and_distrib]
  have h1 : (255 <<< k) >>> k = 255 := by
    rw [Nat.shiftLeft_eq, Nat.shiftRight_eq_div_pow, Nat.mul_div_cancel _ (Nat.pos_pow_of_pos k (by omega))]
  rw [h1, Nat.and_pow_two_sub_one_eq_mod _ 8, Nat.shiftRight_eq_div_pow]

theorem and_255 (u : Nat) : u &&& 255 = u % 256 := Nat.and_pow_two_sub_one_eq_mod u 8

theorem and_127 (u : Nat) : u &&& 127 = u % 128 := Nat.and_pow_two_sub_one_eq_mod u 7

/-! ## Claim C7: integer encoding rule selection -/

/-- Big-endian byte list of the low `k` bytes of `v`, written with
division and remainder (the spec's description of the wire fields). -/
def beNat : Nat → Nat → List Nat
  | 0, _ => []
  | k + 1, v => v / 2 ^ (8 * k) % 256 :: beNat k v

/-- The integer encoding rules exactly as the spec orders them (take the
first applicable): positive fixnum, negative fixnum, uint8, int8,
uint16, int16, uint32, int32, uint64, int64.  Negative payloads are the
two's-complement patterns of the stated width. -/
def specEncodeInt (n : Int) : List Nat :=
  if 0 ≤ n ∧ n ≤ 127 then [n.toNat]
  else if -32 ≤ n ∧ n ≤ -1 then [(n + 256).toNat]
  else if 0 ≤ n ∧ n ≤ 0xff then [0xcc, n.toNat]
  else if -128 ≤ n ∧ n ≤ -33 then [0xd0, (n + 256).toNat]
  else if 0 ≤ n ∧ n ≤ 0xffff then 0xcd :: beNat 2 n.toNat
  else if -32768 ≤ n ∧ n ≤ -129 then 0xd1 :: beNat 2 (n + 2 ^ 16).toNat
  else if 0 ≤ n ∧ n ≤ 0xffffffff then 0xce :: beNat 4 n.toNat
  else if -(2 ^ 31) ≤ n ∧ n ≤ -32769 then 0xd2 :: beNat 4 (n + 2 ^ 32).toNat
  else if 0 ≤ n then 0xcf :: beNat 8 n.toNat
  else 0xd3 :: beNat 8 (n + 2 ^ 64).toNat

theorem and_mask_byte8 (u : Nat) : (u &&& 0xff00) >>> 8 = u / 2 ^ 8 % 256 := by
  have h : (0xff00 : Nat) = 255 <<< 8 := by decide
  rw [h, and_mask_byte]

theorem and_mask_byte16 (u : Nat) : (u &&& 0xff0000) >>> 16 = u / 2 ^ 16 % 256 := by
  have h : (0xff0000 : Nat) = 255 <<< 16 := by decide
  rw [h, and_mask_byte]

theorem and_mask_byte24 (u : Nat) : (u &&& 0xff000000) >>> 24 = u / 2 ^ 24 % 256 := by
  have h : (0xff000000 : Nat) = 255 <<< 24 := by decide
  rw [h, and_mask_byte]

theorem and_mask_byte32 (u : Nat) : (u &&& 0xff00000000) >>> 32 = u / 2 ^ 32 % 256 := by
  have h : (0xff00000000 : Nat) = 255 <<< 32 := by decide
  rw [h, and_mask_byte]

theorem and_mask_byte40 (u : Nat) : (u &&& 0xff0000000000) >>> 40 = u / 2 ^ 40 % 256 := by
  have h : (0xff0000000000 : Nat) = 255 <<< 40 := by decide
  rw [h, and_mask_byte]

theorem and_mask_byte48 (u : Nat) : (u &&& 0xff000000000000) >>> 48 = u / 2 ^ 48 % 256 := by
  have h : (0xff000000000000 : Nat) = 255 <<< 48 := by decide
  rw [h, and_mask_byte]

theorem and_mask_byte56 (u : Nat) : (u &&& 0xff00000000000000) >>> 56 = u / 2 ^ 56 % 256 := by
  have h : (0xff00000000000000 : Nat) = 255 <<< 56 := by decide
  rw [h, and_mask_byte]

set_option maxHeartbeats 3000000 in
/-- C7: for every signed 64-bit integer, `mp_encode_int` produces exactly
the bytes prescribed by the spec's ordered first-match rule list
(positive fixnum, negative fixnum, uint8, int8, uint16, int16, uint32,
int32, uint64, int64); in particular the correct width and header byte
are selected at the boundaries ±2^7, ±2^15, ±2^31 and 2^63−1. -/
theorem c7_integer_encoding_rules (n : Int) (h1 : -(2 ^ 63) ≤ n) (h2 : n < 2 ^ 63) :
    mp_encode_int n = specEncodeInt n := by
  unfold mp_encode_int specEncodeInt
  by_cases hn : 0 ≤ n
  · have hu : (toU64 n : Int) = n := by unfold toU64; omega
    simp only [and_mask_byte8, and_mask_byte16, and_mask_byte24, and_mask_byte32,
      and_mask_byte40, and_mask_byte48, and_mask_byte56, and_255, and_127, beNat]
    norm_num only
    split_ifs <;> simp only [List.cons.injEq, and_true] <;>
      (try constructorm* _ ∧ _) <;> first | trivial | omega
  · have hu : (toU64 n : Int) = n + 2 ^ 64 := by unfold toU64; omega
    simp only [and_mask_byte8, and_mask_byte16, and_mask_byte24, and_mask_byte32,
      and_mask_byte40, and_mask_byte48, and_mask_byte56, and_255, and_127, beNat]
    norm_num only
    split_ifs <;> simp only [List.cons.injEq, and_true] <;>
      (try constructorm* _ ∧ _) <;> first | trivial | omega

/-- Witness for C7 at the boundary value 2^31 (encoded as uint32). -/
theorem c7_integer_encoding_rules_witness :
    -(2 ^ 63) ≤ (2147483648 : Int) ∧ (2147483648 : Int) < 2 ^ 63 ∧
      mp_encode_int 2147483648 = specEncodeInt 2147483648 :=
  ⟨by decide, by decide, c7_integer_encoding_rules 2147483648 (by decide) (by decide)⟩

/-! ## Claim C10: array indexing -/

theorem getArrayLoop_spec (cs : List MpNode) (idx : Int) :
    (idx ≤ 0 → getArrayLoop cs idx = cs.head?)
    ∧ ((cs.length : Int) ≤ idx → getArrayLoop cs idx = none)
    ∧ (0 ≤ idx → idx < (cs.length : Int) → getArrayLoop cs idx = cs[idx.toNat]?) := by
  induction cs generalizing idx with
  | nil =>
    refine ⟨fun _ => rfl, fun _ => rfl, fun h1 h2 => ?_⟩
    simp at h2
    omega
  | cons c rest ih =>
    refine ⟨fun h => ?_, fun h => ?_, fun h1 h2 => ?_⟩
    · rw [getArrayLoop, if_neg (by omega)]
      rfl
    · rw [getArrayLoop, if_pos (by simp at h; omega)]
      exact (ih (idx - 1)).2.1 (by simp at h ⊢; omega)
    · by_cases hpos : 0 < idx
      · rw [getArrayLoop, if_pos hpos]
        have := (ih (idx - 1)).2.2 (by omega) (by simp at h2 ⊢; omega)
        rw [this]
        have hidx : idx.toNat = (idx - 1).toNat + 1 := by omega
        rw [hidx, List.getElem?_cons_succ]
      · rw [getArrayLoop, if_neg hpos]
        have hidx : idx.toNat = 0 := by omega
        rw [hidx, List.getElem?_cons_zero]

/-- C10: array indexing with an index at most 0 yields the first child
(none when empty), with an index at least the child count yields none,
and with an in-range index yields the child at that position. -/
theorem c10_array_indexing (L : MpNode) (idx : Int) :
    (idx ≤ 0 → msgpack_get_array_item L idx = L.child.head?)
    ∧ ((L.child.length : Int) ≤ idx → msgpack_get_array_item L idx = none)
    ∧ (0 ≤ idx → idx < (L.child.length : Int) →
        msgpack_get_array_item L idx = L.child[idx.toNat]?) :=
  getArrayLoop_spec L.child idx

/-- Witness for C10 on a two-element array at indices −1, 5 and 1. -/
theorem c10_array_indexing_witness :
    msgpack_get_array_item ⟨MP_ARR, 0, none, 0, none,
        [msgpack_create_integer 7, msgpack_create_integer 8]⟩ (-1)
      = some (msgpack_create_integer 7)
    ∧ msgpack_get_array_item ⟨MP_ARR, 0, none, 0, none,
        [msgpack_create_integer 7, msgpack_create_integer 8]⟩ 5 = none
    ∧ msgpack_get_array_item ⟨MP_ARR, 0, none, 0, none,
        [msgpack_create_integer 7, msgpack_create_integer 8]⟩ 1
      = some (msgpack_create_integer 8) :=
  ⟨(c10_array_indexing _ (-1)).1 (by norm_num),
   (c10_array_indexing _ 5).2.1 (by norm_num [MpNode.child]),
   (c10_array_indexing _ 1).2.2 (by norm_num) (by norm_num [MpNode.child])⟩

/-! ## Claim C4: map lookup by name

The C loop condition is
`c && c->key && c->key->type != MP_STR && strcasecmp(c->key->data, name)`;
because of the `&&` the walk STOPS at the first child whose key IS an
`MP_STR` node, without ever comparing the name.  On a map with Str keys
the lookup therefore always returns the first child, whatever the name;
`msgpack_detach_item_from_map` runs the identical loop and targets the
same child. -/

/-- C4 (code bug evaluation): on the map {"a": 1, "b": 2}, looking up
"b" returns the first child — the one keyed "a" — and the detach loop
stops at index 0, even though "a" and "b" differ case-insensitively. -/
theorem c4_map_lookup_bug :
    msgpack_get_map_item
      ⟨MP_MAP, 0, none, 0, none,
        [⟨MP_INT, 1, none, 0, some (msgpack_create_string [0x61]), []⟩,
         ⟨MP_INT, 2, none, 0, some (msgpack_create_string [0x62]), []⟩]⟩ [0x62]
      = some ⟨MP_INT, 1, none, 0, some (msgpack_create_string [0x61]), []⟩
    ∧ mapFindIdx [0x62]
        [⟨MP_INT, 1, none, 0, some (msgpack_create_string [0x61]), []⟩,
         ⟨MP_INT, 2, none, 0, some (msgpack_create_string [0x62]), []⟩] 0 = some 0
    ∧ strcaseeq [0x61] [0x62] = false :=
  ⟨rfl, rfl, rfl⟩

/-! ## Claim C5: deep copy

`msgpack_duplicate` calls `mp_push_data(item, ...)` on the SOURCE node
instead of the new node, so the returned copy of any payload-carrying
node has a NULL `data` and a zero length slot (and the source's buffer
is silently reallocated, leaking the old allocation).  The copy is not
structurally equal to the original. -/

/-- C5 (code bug evaluation): duplicating the Str node "a" returns a Str
node with no payload and length 0, while the original carries the
one-byte payload 0x61 — the copy is not structurally equal to the
original.  (A Bool true node similarly comes back with its value slot
zeroed, since the number slot is only copied for Int and Float kinds.) -/
theorem c5_duplicate_bug :
    msgpack_duplicate (msgpack_create_string [0x61]) true = ⟨MP_STR, 0, none, 0, none, []⟩
    ∧ msgpack_create_string [0x61] = ⟨MP_STR, 1, some [0x61], 0, none, []⟩
    ∧ (⟨MP_STR, 0, none, 0, none, []⟩ : MpNode) ≠ ⟨MP_STR, 1, some [0x61], 0, none, []⟩
    ∧ msgpack_duplicate ⟨MP_BOOL, 1, none, 0, none, []⟩ true = ⟨MP_BOOL, 0, none, 0, none, []⟩ := by
  refine ⟨rfl, rfl, ?_, rfl⟩
  intro h
  simp at h

/-! ## Claim C2: ext 32 decoding

The encoder lays an ext 32 value out as header `0xC9`, one etype byte,
a 4-byte big-endian length, then the payload; the spec and the claim
describe that same layout.  The decoder however computes the length from
bytes 1–4 — the etype byte and only three of the four length bytes — so
on a well-formed ext 32 value it reads a garbage length. -/

/-- C2 (code bug evaluation): on the 8-byte input
`C9 01 00 00 00 02 AA BB` (etype 1, length 2, payload AA BB under the
layout the claim states), the decoder folds the etype byte 0x01 into the
length, computes 0x01000000 = 16777216, and fails with EOF instead of
returning the Ext node. -/
theorem c2_ext32_decode_bug :
    mp_decode_value 9 [0xc9, 0x01, 0x00, 0x00, 0x00, 0x02, 0xaa, 0xbb] = .error .eof := rfl

/-! ## Claim C3: str/bin 32 kind selection

The str/bin 8 and 16 branches test bit `0x10` of the header byte before
consuming it.  The 32-bit branch consumes the five header bytes first
and then evaluates `c->p[0] & 0x10` — which by then addresses the first
PAYLOAD byte, so the Str/Blob decision depends on payload contents. -/

/-- C3 (code bug evaluation): input `DB 00 00 00 01 41` is a str 32
value (header 0xDB) of length 1 with payload "A"; since 0x41 has bit
0x10 clear, the decoder returns a Blob node, not the Str node the claim
(and the spec) prescribe. -/
theorem c3_str32_kind_bug :
    mp_decode_value 8 [0xdb, 0x00, 0x00, 0x00, 0x01, 0x41]
      = .ok (⟨MP_BLOB, 1, some [0x41], 0, none, []⟩, [])
    ∧ MP_BLOB ≠ MP_STR :=
  ⟨rfl, by decide⟩

/-! ## Claim C1: decode ∘ encode round trip

Because of the str/bin 32 kind-selection slip (claim C3) and the ext 32
length slip (claim C2), the round trip fails for payloads long enough to
need a 32-bit length header even though such lengths are encodable: a
Blob whose first payload byte has bit 0x10 set comes back as a Str. -/

theorem decode_bin32_payload (p : List Nat) (b1 b2 b3 b4 fuel : Nat)
    (hl : (b1 <<< 24) ||| (b2 <<< 16) ||| (b3 <<< 8) ||| b4 = p.length) :
    mp_decode_value (fuel + 1) (0xc6 :: b1 :: b2 :: b3 :: b4 :: p)
      = .ok (mp_push_data mp_node_new p p.length
              (if byteAt p 0 &&& 0x10 ≠ 0 then MP_STR else MP_BLOB), []) := by
  rw [mp_decode_value]
  norm_num [byteAt, List.getD]
  rw [mp_decode_str32]
  norm_num [byteAt, List.getD]
  rw [hl]
  rw [if_neg (by omega), if_neg (by omega), List.drop_length]

/-- C1 (code bug evaluation): the Blob node built by
`msgpack_create_blob` from a 65536-byte payload starting with byte 0x10
— a payload length squarely inside the encodable bin 32 range — encodes
to `C6 00 01 00 00` + payload, but decoding those bytes yields a STR
node: the kind is not preserved by `decode(encode(T))`. -/
theorem c1_roundtrip_bug :
    mp_decode_value 70000 (mp_encode_value (msgpack_create_blob (List.replicate 65536 0x10) 65536))
      = .ok (⟨MP_STR, 65536, some (List.replicate 65536 0x10), 0, none, []⟩, [])
    ∧ (msgpack_create_blob (List.replicate 65536 0x10) 65536).type = MP_BLOB
    ∧ MP_STR ≠ MP_BLOB := by
  refine ⟨?_, rfl, by decide⟩
  have htake : (List.replicate 65536 0x10).take 65536 = List.replicate 65536 0x10 := by
    rw [List.take_replicate]; norm_num
  have henc : mp_encode_value (msgpack_create_blob (List.replicate 65536 0x10) 65536)
      = 0xc6 :: 0 :: 1 :: 0 :: 0 :: List.replicate 65536 0x10 := by
    rw [msgpack_create_blob]
    rw [show mp_push_data mp_node_new (List.replicate 65536 0x10) 65536 MP_BLOB
          = ⟨MP_BLOB, 65536, some (List.replicate 65536 0x10), 0, none, []⟩ by
        rw [mp_push_data, htake]; rfl]
    rw [mp_encode_value]
    rw [mp_encode_blob, if_neg (by norm_num), if_neg (by norm_num)]
    rw [show ((65536 &&& 0xff000000) >>> 24 : Nat) = 0 from by decide,
        show ((65536 &&& 0xff0000) >>> 16 : Nat) = 1 from by decide,
        show ((65536 &&& 0xff00) >>> 8 : Nat) = 0 from by decide,
        show ((65536 &&& 0xff : Nat)) = 0 from by decide]
    rw [show (some (List.replicate 65536 0x10)).getD [] = List.replicate 65536 0x10 from rfl, htake]
    rfl
  rw [henc]
  rw [show (70000 : Nat) = 69999 + 1 from rfl]
  rw [decode_bin32_payload _ _ _ _ _ _ (by rw [List.length_replicate]; decide)]
  have hb : byteAt (List.replicate 65536 0x10) 0 = 0x10 := by
    rw [byteAt, show (65536 : Nat) = 65535 + 1 from rfl, List.replicate_succ]
    rfl
  rw [hb, if_pos (by decide), List.length_replicate, mp_push_data, htake]
  rfl

/-! ## Claim C9: float encoding format selection -/

/-- The C test `d == (double)f` of `mp_encode_double` is IEEE numeric
equality between `d` and its round trip through binary32.  On bit
patterns this coincides with the code model's test (non-NaN and
bit-equal round trip): a NaN never satisfies either side, and both
zeros round-trip to their own pattern, so the signed-zero allowance of
`==` never separates the two. -/
theorem f64NumEq_roundtrip_iff (d : Nat) (hd : d < 2 ^ 64) :
    f64NumEq d (f32ToF64Bits (f64ToF32Bits d)) = true ↔
      (¬ isNaN64 d ∧ f32ToF64Bits (f64ToF32Bits d) = d) := by
  constructor
  · intro h
    simp only [f64NumEq, Bool.and_eq_true, Bool.not_eq_true', Bool.or_eq_true,
      beq_iff_eq] at h
    obtain ⟨⟨hna, hnb⟩, hor⟩ := h
    refine ⟨by simp [hna], ?_⟩
    rcases hor with heq | ⟨hza, hzb⟩
    · exact heq.symm
    · have hmask : d &&& 0x7fffffffffffffff = d % 2 ^ 63 :=
        Nat.and_pow_two_sub_one_eq_mod d 63
      simp only [isZero64, decide_eq_true_eq, hmask] at hza
      have hcases : d = 0 ∨ d = 2 ^ 63 := by omega
      rcases hcases with rfl | rfl
      · decide
      · decide
  · rintro ⟨hn, he⟩
    have hnf : isNaN64 d = false := Bool.eq_false_iff.mpr hn
    simp [f64NumEq, he, hnf]

/-- C9: for every binary64 bit pattern `d`, `mp_encode_double` emits
header `0xCA` followed by the 4-byte big-endian binary32 pattern of the
narrowed value exactly when `d` compares IEEE-equal (`f64NumEq`, the C
test `d == (double)(float)d`) to its round trip through binary32, and
otherwise emits header `0xCB` followed by the 8-byte big-endian
binary64 pattern. -/
theorem c9_float_encoding (d : Nat) (hd : d < 2 ^ 64) :
    (f64NumEq d (f32ToF64Bits (f64ToF32Bits d)) = true →
      mp_encode_double d =
        [0xca, (f64ToF32Bits d >>> 24) &&& 0xff, (f64ToF32Bits d >>> 16) &&& 0xff,
         (f64ToF32Bits d >>> 8) &&& 0xff, f64ToF32Bits d &&& 0xff]) ∧
    (f64NumEq d (f32ToF64Bits (f64ToF32Bits d)) = false →
      mp_encode_double d =
        [0xcb, (d >>> 56) &&& 0xff, (d >>> 48) &&& 0xff, (d >>> 40) &&& 0xff,
         (d >>> 32) &&& 0xff, (d >>> 24) &&& 0xff, (d >>> 16) &&& 0xff,
         (d >>> 8) &&& 0xff, d &&& 0xff]) := by
  constructor
  · intro h
    obtain ⟨hn, he⟩ := (f64NumEq_roundtrip_iff d hd).mp h
    simp only [mp_encode_double]
    rw [if_pos ⟨hn, he⟩]
    simp [beBytes]
  · intro h
    have hc : ¬ (¬ isNaN64 d ∧ f32ToF64Bits (f64ToF32Bits d) = d) := by
      intro hcond
      have ht := (f64NumEq_roundtrip_iff d hd).mpr hcond
      rw [h] at ht
      exact Bool.false_ne_true ht
    simp only [mp_encode_double]
    rw [if_neg hc]
    simp [beBytes]

/-- Witness for C9 on both branches: 1.5 (`0x3FF8000000000000`) survives
the binary32 round trip and encodes as `0xCA` plus the bytes of `1.5f`
(`0x3FC00000`); 0.1 (`0x3FB999999999999A`) does not and encodes as
`0xCB` plus its own eight bytes. -/
theorem c9_float_encoding_witness :
    mp_encode_double 0x3FF8000000000000 = [0xca, 0x3f, 0xc0, 0x00, 0x00] ∧
    mp_encode_double 0x3FB999999999999A =
      [0xcb, 0x3f, 0xb9, 0x99, 0x99, 0x99, 0x99, 0x99, 0x9a] := by
  constructor
  · have h := (c9_float_encoding 0x3FF8000000000000 (by decide)).1 (by decide)
    exact h.trans (by decide)
  · have h := (c9_float_encoding 0x3FB999999999999A (by decide)).2 (by decide)
    exact h.trans (by decide)

/-! ## Claim C6: unpack return values

First the decoder's progress (every decoded value consumes at least one
byte) and fuel sufficiency (with fuel exceeding the input length the
fuel-exhaustion artifact never occurs), then the characterization of
`msgpack_unpack`'s return values. -/


theorem decode_uint8_progress (input : List Nat) (n : MpNode) (rest : List Nat)
    (h : mp_decode_uint8 input = .ok (n, rest)) : rest.length < input.length := by
  rw [mp_decode_uint8] at h
  by_cases h1 : input.length < 2
  · rw [if_pos h1] at h
    exact absurd h (by simp)
  · rw [if_neg h1] at h
    simp only [Except.ok.injEq, Prod.mk.injEq] at h
    obtain ⟨-, rfl⟩ := h
    simp only [List.length_drop]
    omega

theorem decode_int8_progress (input : List Nat) (n : MpNode) (rest : List Nat)
    (h : mp_decode_int8 input = .ok (n, rest)) : rest.length < input.length := by
  rw [mp_decode_int8] at h
  by_cases h1 : input.length < 2
  · rw [if_pos h1] at h
    exact absurd h (by simp)
  · rw [if_neg h1] at h
    simp only [Except.ok.injEq, Prod.mk.injEq] at h
    obtain ⟨-, rfl⟩ := h
    simp only [List.length_drop]
    omega

theorem decode_uint16_progress (input : List Nat) (n : MpNode) (rest : List Nat)
    (h : mp_decode_uint16 input = .ok (n, rest)) : rest.length < input.length := by
  rw [mp_decode_uint16] at h
  by_cases h1 : input.length < 3
  · rw [if_pos h1] at h
    exact absurd h (by simp)
  · rw [if_neg h1] at h
    simp only [Except.ok.injEq, Prod.mk.injEq] at h
    obtain ⟨-, rfl⟩ := h
    simp only [List.length_drop]
    omega

theorem decode_int16_progress (input : List Nat) (n : MpNode) (rest : List Nat)
    (h : mp_decode_int16 input = .ok (n, rest)) : rest.length < input.length := by
  rw [mp_decode_int16] at h
  by_cases h1 : input.length < 3
  · rw [if_pos h1] at h
    exact absurd h (by simp)
  · rw [if_neg h1] at h
    simp only [Except.ok.injEq, Prod.mk.injEq] at h
    obtain ⟨-, rfl⟩ := h
    simp only [List.length_drop]
    omega

theorem decode_uint32_progress (input : List Nat) (n : MpNode) (rest : List Nat)
    (h : mp_decode_uint32 input = .ok (n, rest)) : rest.length < input.length := by
  rw [mp_decode_uint32] at h
  by_cases h1 : input.length < 5
  · rw [if_pos h1] at h
    exact absurd h (by simp)
  · rw [if_neg h1] at h
    simp only [Except.ok.injEq, Prod.mk.injEq] at h
    obtain ⟨-, rfl⟩ := h
    simp only [List.length_drop]
    omega

theorem decode_int32_progress (input : List Nat) (n : MpNode) (rest : List Nat)
    (h : mp_decode_int32 input = .ok (n, rest)) : rest.length < input.length := by
  rw [mp_decode_int32] at h
  by_cases h1 : input.length < 5
  · rw [if_pos h1] at h
    exact absurd h (by simp)
  · rw [if_neg h1] at h
    simp only [Except.ok.injEq, Prod.mk.injEq] at h
    obtain ⟨-, rfl⟩ := h
    simp only [List.length_drop]
    omega

theorem decode_word64_progress (input : List Nat) (n : MpNode) (rest : List Nat)
    (h : mp_decode_word64 input = .ok (n, rest)) : rest.length < input.length := by
  rw [mp_decode_word64] at h
  by_cases h1 : input.length < 9
  · rw [if_pos h1] at h
    exact absurd h (by simp)
  · rw [if_neg h1] at h
    simp only [Except.ok.injEq, Prod.mk.injEq] at h
    obtain ⟨-, rfl⟩ := h
    simp only [List.length_drop]
    omega

theorem decode_flt32_progress (input : List Nat) (n : MpNode) (rest : List Nat)
    (h : mp_decode_flt32 input = .ok (n, rest)) : rest.length < input.length := by
  rw [mp_decode_flt32] at h
  by_cases h1 : input.length < 5
  · rw [if_pos h1] at h
    exact absurd h (by simp)
  · rw [if_neg h1] at h
    simp only [Except.ok.injEq, Prod.mk.injEq] at h
    obtain ⟨-, rfl⟩ := h
    simp only [List.length_drop]
    omega

theorem decode_flt64_progress (input : List Nat) (n : MpNode) (rest : List Nat)
    (h : mp_decode_flt64 input = .ok (n, rest)) : rest.length < input.length := by
  rw [mp_decode_flt64] at h
  by_cases h1 : input.length < 9
  · rw [if_pos h1] at h
    exact absurd h (by simp)
  · rw [if_neg h1] at h
    simp only [Except.ok.injEq, Prod.mk.injEq] at h
    obtain ⟨-, rfl⟩ := h
    simp only [List.length_drop]
    omega

theorem decode_fixstr_progress (b : Nat) (input : List Nat) (n : MpNode) (rest : List Nat)
    (h : mp_decode_fixstr b input = .ok (n, rest)) : rest.length < input.length := by
  rw [mp_decode_fixstr] at h
  by_cases h1 : input.length < 1 + (b &&& 0x1f)
  · rw [if_pos h1] at h
    exact absurd h (by simp)
  · rw [if_neg h1] at h
    simp only [Except.ok.injEq, Prod.mk.injEq] at h
    obtain ⟨-, rfl⟩ := h
    simp only [List.length_drop]
    omega

theorem decode_fixext_progress (b : Nat) (input : List Nat) (n : MpNode) (rest : List Nat)
    (h : mp_decode_fixext b input = .ok (n, rest)) : rest.length < input.length := by
  rw [mp_decode_fixext] at h
  by_cases h1 : input.length < 2
  · rw [if_pos h1] at h
    exact absurd h (by simp)
  · rw [if_neg h1] at h
    by_cases h2 : input.length < 2 + 1 <<< (b - 0xd4)
    · rw [if_pos h2] at h
      exact absurd h (by simp)
    · rw [if_neg h2] at h
      simp only [Except.ok.injEq, Prod.mk.injEq] at h
      obtain ⟨-, rfl⟩ := h
      simp only [List.length_drop] at *
      generalize (1 <<< (b - 0xd4) : Nat) = L at h2
      omega

theorem decode_str8_progress (b : Nat) (input : List Nat) (n : MpNode) (rest : List Nat)
    (h : mp_decode_str8 b input = .ok (n, rest)) : rest.length < input.length := by
  rw [mp_decode_str8] at h
  by_cases h1 : input.length < 2
  · rw [if_pos h1] at h
    exact absurd h (by simp)
  · rw [if_neg h1] at h
    by_cases h2 : input.length < 2 + byteAt input 1
    · rw [if_pos h2] at h
      exact absurd h (by simp)
    · rw [if_neg h2] at h
      simp only [Except.ok.injEq, Prod.mk.injEq] at h
      obtain ⟨-, rfl⟩ := h
      simp only [List.length_drop] at *
      omega

theorem decode_str16_progress (b : Nat) (input : List Nat) (n : MpNode) (rest : List Nat)
    (h : mp_decode_str16 b input = .ok (n, rest)) : rest.length < input.length := by
  rw [mp_decode_str16] at h
  by_cases h1 : input.length < 3
  · rw [if_pos h1] at h
    exact absurd h (by simp)
  · rw [if_neg h1] at h
    by_cases h2 : input.length < 3 + ((byteAt input 1 <<< 8) ||| byteAt input 2)
    · rw [if_pos h2] at h
      exact absurd h (by simp)
    · rw [if_neg h2] at h
      simp only [Except.ok.injEq, Prod.mk.injEq] at h
      obtain ⟨-, rfl⟩ := h
      simp only [List.length_drop] at *
      omega

theorem decode_ext8_progress (input : List Nat) (n : MpNode) (rest : List Nat)
    (h : mp_decode_ext8 input = .ok (n, rest)) : rest.length < input.length := by
  rw [mp_decode_ext8] at h
  by_cases h1 : input.length < 3
  · rw [if_pos h1] at h
    exact absurd h (by simp)
  · rw [if_neg h1] at h
    by_cases h2 : input.length < 3 + byteAt input 2
    · rw [if_pos h2] at h
      exact absurd h (by simp)
    · rw [if_neg h2] at h
      simp only [Except.ok.injEq, Prod.mk.injEq] at h
      obtain ⟨-, rfl⟩ := h
      simp only [List.length_drop] at *
      omega

theorem decode_ext16_progress (input : List Nat) (n : MpNode) (rest : List Nat)
    (h : mp_decode_ext16 input = .ok (n, rest)) : rest.length < input.length := by
  rw [mp_decode_ext16] at h
  by_cases h1 : input.length < 4
  · rw [if_pos h1] at h
    exact absurd h (by simp)
  · rw [if_neg h1] at h
    by_cases h2 : input.length < 4 + ((byteAt input 2 <<< 8) ||| byteAt input 3)
    · rw [if_pos h2] at h
      exact absurd h (by simp)
    · rw [if_neg h2] at h
      simp only [Except.ok.injEq, Prod.mk.injEq] at h
      obtain ⟨-, rfl⟩ := h
      simp only [List.length_drop] at *
      omega

theorem decode_str32_progress (input : List Nat) (n : MpNode) (rest : List Nat)
    (h : mp_decode_str32 input = .ok (n, rest)) : rest.length < input.length := by
  rw [mp_decode_str32] at h
  by_cases h1 : input.length < 5
  · rw [if_pos h1] at h
    exact absurd h (by simp)
  · rw [if_neg h1] at h
    by_cases h2 : (input.drop 5).length < ((byteAt input 1 <<< 24) ||| (byteAt input 2 <<< 16) ||| (byteAt input 3 <<< 8) ||| byteAt input 4)
    · rw [if_pos h2] at h
      exact absurd h (by simp)
    · rw [if_neg h2] at h
      simp only [Except.ok.injEq, Prod.mk.injEq] at h
      obtain ⟨-, rfl⟩ := h
      simp only [List.length_drop] at *
      omega

theorem decode_ext32_progress (input : List Nat) (n : MpNode) (rest : List Nat)
    (h : mp_decode_ext32 input = .ok (n, rest)) : rest.length < input.length := by
  rw [mp_decode_ext32] at h
  by_cases h1 : input.length < 6
  · rw [if_pos h1] at h
    exact absurd h (by simp)
  · rw [if_neg h1] at h
    by_cases h2 : (input.drop 6).length < ((byteAt input 1 <<< 24) ||| (byteAt input 2 <<< 16) ||| (byteAt input 3 <<< 8) ||| byteAt input 4)
    · rw [if_pos h2] at h
      exact absurd h (by simp)
    · rw [if_neg h2] at h
      simp only [Except.ok.injEq, Prod.mk.injEq] at h
      obtain ⟨-, rfl⟩ := h
      simp only [List.length_drop] at *
      omega

theorem decode_array_progress (dv : List Nat → Except MpErr (MpNode × List Nat))
    (hdv : ∀ i n r, dv i = .ok (n, r) → r.length < i.length) :
    ∀ count input ns rest, mp_decode_array dv count input = .ok (ns, rest) →
      rest.length ≤ input.length := by
  intro count
  induction count with
  | zero =>
    intro input ns rest h
    simp only [mp_decode_array, Except.ok.injEq, Prod.mk.injEq] at h
    obtain ⟨-, rfl⟩ := h
    exact le_refl _
  | succ c ih =>
    intro input ns rest h
    rw [mp_decode_array] at h
    split at h
    · exact absurd h (by simp)
    · rename_i n r heq
      split at h
      · exact absurd h (by simp)
      · rename_i ns2 rest2 heq2
        simp only [Except.ok.injEq, Prod.mk.injEq] at h
        obtain ⟨-, rfl⟩ := h
        have h1 := hdv _ _ _ heq
        have h2 := ih _ _ _ heq2
        omega

theorem decode_hash_progress (dv : List Nat → Except MpErr (MpNode × List Nat))
    (hdv : ∀ i n r, dv i = .ok (n, r) → r.length < i.length) :
    ∀ count input ns rest, mp_decode_hash dv count input = .ok (ns, rest) →
      rest.length ≤ input.length := by
  intro count
  induction count with
  | zero =>
    intro input ns rest h
    simp only [mp_decode_hash, Except.ok.injEq, Prod.mk.injEq] at h
    obtain ⟨-, rfl⟩ := h
    exact le_refl _
  | succ c ih =>
    intro input ns rest h
    rw [mp_decode_hash] at h
    split at h
    · exact absurd h (by simp)
    · rename_i k r heq
      split at h
      · exact absurd h (by simp)
      · rename_i v r2 heq2
        split at h
        · exact absurd h (by simp)
        · rename_i ps r3 heq3
          simp only [Except.ok.injEq, Prod.mk.injEq] at h
          obtain ⟨-, rfl⟩ := h
          have h1 := hdv _ _ _ heq
          have h2 := hdv _ _ _ heq2
          have h3 := ih _ _ _ heq3
          omega

theorem decode_arrnode_progress (dv : List Nat → Except MpErr (MpNode × List Nat))
    (hdv : ∀ i n r, dv i = .ok (n, r) → r.length < i.length)
    (count : Nat) (input : List Nat) (n : MpNode) (rest : List Nat)
    (h : mp_decode_arrnode dv count input = .ok (n, rest)) :
    rest.length ≤ input.length := by
  rw [mp_decode_arrnode] at h
  split at h
  · exact absurd h (by simp)
  · rename_i cs r heq
    simp only [Except.ok.injEq, Prod.mk.injEq] at h
    obtain ⟨-, rfl⟩ := h
    exact decode_array_progress dv hdv _ _ _ _ heq

theorem decode_mapnode_progress (dv : List Nat → Except MpErr (MpNode × List Nat))
    (hdv : ∀ i n r, dv i = .ok (n, r) → r.length < i.length)
    (count : Nat) (input : List Nat) (n : MpNode) (rest : List Nat)
    (h : mp_decode_mapnode dv count input = .ok (n, rest)) :
    rest.length ≤ input.length := by
  rw [mp_decode_mapnode] at h
  split at h
  · exact absurd h (by simp)
  · rename_i cs r heq
    simp only [Except.ok.injEq, Prod.mk.injEq] at h
    obtain ⟨-, rfl⟩ := h
    exact decode_hash_progress dv hdv _ _ _ _ heq

set_option maxRecDepth 8000 in
theorem decode_value_progress :
    ∀ fuel input n rest, mp_decode_value fuel input = .ok (n, rest) →
      rest.length < input.length := by
  intro fuel
  induction fuel with
  | zero => intro input n rest h; simp [mp_decode_value] at h
  | succ f ih =>
    intro input n rest h
    match input with
    | [] => simp [mp_decode_value] at h
    | b :: tl =>
      rw [mp_decode_value] at h
      have harr : ∀ count i nn rr,
          mp_decode_arrnode (mp_decode_value f) count i = .ok (nn, rr) → rr.length ≤ i.length :=
        fun count i nn rr hh =>
          decode_arrnode_progress _ (fun i2 n2 r2 => ih i2 n2 r2) count i nn rr hh
      have hmap : ∀ count i nn rr,
          mp_decode_mapnode (mp_decode_value f) count i = .ok (nn, rr) → rr.length ≤ i.length :=
        fun count i nn rr hh =>
          decode_mapnode_progress _ (fun i2 n2 r2 => ih i2 n2 r2) count i nn rr hh
      by_cases hb0 : b = 0xcc
      · rw [if_pos hb0] at h
        exact decode_uint8_progress _ _ _ h
      · rw [if_neg hb0] at h
        by_cases hb1 : b = 0xd0
        · rw [if_pos hb1] at h
          exact decode_int8_progress _ _ _ h
        · rw [if_neg hb1] at h
          by_cases hb2 : b = 0xcd
          · rw [if_pos hb2] at h
            exact decode_uint16_progress _ _ _ h
          · rw [if_neg hb2] at h
            by_cases hb3 : b = 0xd1
            · rw [if_pos hb3] at h
              exact decode_int16_progress _ _ _ h
            · rw [if_neg hb3] at h
              by_cases hb4 : b = 0xce
              · rw [if_pos hb4] at h
                exact decode_uint32_progress _ _ _ h
              · rw [if_neg hb4] at h
                by_cases hb5 : b = 0xd2
                · rw [if_pos hb5] at h
                  exact decode_int32_progress _ _ _ h
                · rw [if_neg hb5] at h
                  by_cases hb6 : b = 0xcf
                  · rw [if_pos hb6] at h
                    exact decode_word64_progress _ _ _ h
                  · rw [if_neg hb6] at h
                    by_cases hb7 : b = 0xd3
                    · rw [if_pos hb7] at h
                      exact decode_word64_progress _ _ _ h
                    · rw [if_neg hb7] at h
                      by_cases hb8 : b = 0xc0
                      · rw [if_pos hb8] at h
                        simp only [Except.ok.injEq, Prod.mk.injEq] at h
                        obtain ⟨-, rfl⟩ := h
                        simp only [List.length_drop, List.length_cons]
                        omega
                      · rw [if_neg hb8] at h
                        by_cases hb9 : b = 0xc2 ∨ b = 0xc3
                        · rw [if_pos hb9] at h
                          simp only [Except.ok.injEq, Prod.mk.injEq] at h
                          obtain ⟨-, rfl⟩ := h
                          simp only [List.length_drop, List.length_cons]
                          omega
                        · rw [if_neg hb9] at h
                          by_cases hb10 : b = 0xca
                          · rw [if_pos hb10] at h
                            exact decode_flt32_progress _ _ _ h
                          · rw [if_neg hb10] at h
                            by_cases hb11 : b = 0xcb
                            · rw [if_pos hb11] at h
                              exact decode_flt64_progress _ _ _ h
                            · rw [if_neg hb11] at h
                              by_cases hb12 : 0xd4 ≤ b ∧ b ≤ 0xd8
                              · rw [if_pos hb12] at h
                                exact decode_fixext_progress _ _ _ _ h
                              · rw [if_neg hb12] at h
                                by_cases hb13 : b = 0xc4 ∨ b = 0xd9
                                · rw [if_pos hb13] at h
                                  exact decode_str8_progress _ _ _ _ h
                                · rw [if_neg hb13] at h
                                  by_cases hb14 : b = 0xc5 ∨ b = 0xda
                                  · rw [if_pos hb14] at h
                                    exact decode_str16_progress _ _ _ _ h
                                  · rw [if_neg hb14] at h
                                    by_cases hb15 : b = 0xc6 ∨ b = 0xdb
                                    · rw [if_pos hb15] at h
                                      exact decode_str32_progress _ _ _ h
                                    · rw [if_neg hb15] at h
                                      by_cases hb16 : b = 0xc7
                                      · rw [if_pos hb16] at h
                                        exact decode_ext8_progress _ _ _ h
                                      · rw [if_neg hb16] at h
                                        by_cases hb17 : b = 0xc8
                                        · rw [if_pos hb17] at h
                                          exact decode_ext16_progress _ _ _ h
                                        · rw [if_neg hb17] at h
                                          by_cases hb18 : b = 0xc9
                                          · rw [if_pos hb18] at h
                                            exact decode_ext32_progress _ _ _ h
                                          · rw [if_neg hb18] at h
                                            by_cases hb19 : b = 0xdc
                                            · rw [if_pos hb19] at h
                                              by_cases hlen : (b :: tl).length < 3
                                              · rw [if_pos hlen] at h
                                                exact absurd h (by simp)
                                              · rw [if_neg hlen] at h
                                                have hc := harr _ _ _ _ h
                                                simp only [List.length_drop, List.length_cons] at hc ⊢
                                                omega
                                            · rw [if_neg hb19] at h
                                              by_cases hb20 : b = 0xdd
                                              · rw [if_pos hb20] at h
                                                by_cases hlen : (b :: tl).length < 5
                                                · rw [if_pos hlen] at h
                                                  exact absurd h (by simp)
                                                · rw [if_neg hlen] at h
                                                  have hc := harr _ _ _ _ h
                                                  simp only [List.length_drop, List.length_cons] at hc ⊢
                                                  omega
                                              · rw [if_neg hb20] at h
                                                by_cases hb21 : b = 0xde
                                                · rw [if_pos hb21] at h
                                                  by_cases hlen : (b :: tl).length < 3
                                                  · rw [if_pos hlen] at h
                                                    exact absurd h (by simp)
                                                  · rw [if_neg hlen] at h
                                                    have hc := hmap _ _ _ _ h
                                                    simp only [List.length_drop, List.length_cons] at hc ⊢
                                                    omega
                                                · rw [if_neg hb21] at h
                                                  by_cases hb22 : b = 0xdf
                                                  · rw [if_pos hb22] at h
                                                    by_cases hlen : (b :: tl).length < 5
                                                    · rw [if_pos hlen] at h
                                                      exact absurd h (by simp)
                                                    · rw [if_neg hlen] at h
                                                      have hc := hmap _ _ _ _ h
                                                      simp only [List.length_drop, List.length_cons] at hc ⊢
                                                      omega
                                                  · rw [if_neg hb22] at h
                                                    by_cases hb23 : b &&& 0x80 = 0
                                                    · rw [if_pos hb23] at h
                                                      simp only [Except.ok.injEq, Prod.mk.injEq] at h
                                                      obtain ⟨-, rfl⟩ := h
                                                      simp only [List.length_drop, List.length_cons]
                                                      omega
                                                    · rw [if_neg hb23] at h
                                                      by_cases hb24 : b &&& 0xe0 = 0xe0
                                                      · rw [if_pos hb24] at h
                                                        simp only [Except.ok.injEq, Prod.mk.injEq] at h
                                                        obtain ⟨-, rfl⟩ := h
                                                        simp only [List.length_drop, List.length_cons]
                                                        omega
                                                      · rw [if_neg hb24] at h
                                                        by_cases hb25 : b &&& 0xe0 = 0xa0
                                                        · rw [if_pos hb25] at h
                                                          exact decode_fixstr_progress _ _ _ _ h
                                                        · rw [if_neg hb25] at h
                                                          by_cases hb26 : b &&& 0xf0 = 0x90
                                                          · rw [if_pos hb26] at h
                                                            have hc := harr _ _ _ _ h
                                                            simp only [List.length_drop, List.length_cons] at hc ⊢
                                                            omega
                                                          · rw [if_neg hb26] at h
                                                            by_cases hb27 : b &&& 0xf0 = 0x80
                                                            · rw [if_pos hb27] at h
                                                              have hc := hmap _ _ _ _ h
                                                              simp only [List.length_drop, List.length_cons] at hc ⊢
                                                              omega
                                                            · rw [if_neg hb27] at h
                                                              simp at h



theorem decode_uint8_no_out (input : List Nat) :
    mp_decode_uint8 input ≠ .error .out := by
  rw [mp_decode_uint8]
  by_cases h1 : input.length < 2
  · rw [if_pos h1]
    simp
  · rw [if_neg h1]
    simp

theorem decode_int8_no_out (input : List Nat) :
    mp_decode_int8 input ≠ .error .out := by
  rw [mp_decode_int8]
  by_cases h1 : input.length < 2
  · rw [if_pos h1]
    simp
  · rw [if_neg h1]
    simp

theorem decode_uint16_no_out (input : List Nat) :
    mp_decode_uint16 input ≠ .error .out := by
  rw [mp_decode_uint16]
  by_cases h1 : input.length < 3
  · rw [if_pos h1]
    simp
  · rw [if_neg h1]
    simp

theorem decode_int16_no_out (input : List Nat) :
    mp_decode_int16 input ≠ .error .out := by
  rw [mp_decode_int16]
  by_cases h1 : input.length < 3
  · rw [if_pos h1]
    simp
  · rw [if_neg h1]
    simp

theorem decode_uint32_no_out (input : List Nat) :
    mp_decode_uint32 input ≠ .error .out := by
  rw [mp_decode_uint32]
  by_cases h1 : input.length < 5
  · rw [if_pos h1]
    simp
  · rw [if_neg h1]
    simp

theorem decode_int32_no_out (input : List Nat) :
    mp_decode_int32 input ≠ .error .out := by
  rw [mp_decode_int32]
  by_cases h1 : input.length < 5
  · rw [if_pos h1]
    simp
  · rw [if_neg h1]
    simp

theorem decode_word64_no_out (input : List Nat) :
    mp_decode_word64 input ≠ .error .out := by
  rw [mp_decode_word64]
  by_cases h1 : input.length < 9
  · rw [if_pos h1]
    simp
  · rw [if_neg h1]
    simp

theorem decode_flt32_no_out (input : List Nat) :
    mp_decode_flt32 input ≠ .error .out := by
  rw [mp_decode_flt32]
  by_cases h1 : input.length < 5
  · rw [if_pos h1]
    simp
  · rw [if_neg h1]
    simp

theorem decode_flt64_no_out (input : List Nat) :
    mp_decode_flt64 input ≠ .error .out := by
  rw [mp_decode_flt64]
  by_cases h1 : input.length < 9
  · rw [if_pos h1]
    simp
  · rw [if_neg h1]
    simp

theorem decode_fixstr_no_out (b : Nat) (input : List Nat) :
    mp_decode_fixstr b input ≠ .error .out := by
  rw [mp_decode_fixstr]
  by_cases h1 : input.length < 1 + (b &&& 0x1f)
  · rw [if_pos h1]
    simp
  · rw [if_neg h1]
    simp

theorem decode_fixext_no_out (b : Nat) (input : List Nat) :
    mp_decode_fixext b input ≠ .error .out := by
  rw [mp_decode_fixext]
  by_cases h1 : input.length < 2
  · rw [if_pos h1]
    simp
  · rw [if_neg h1]
    by_cases h2 : input.length < 2 + 1 <<< (b - 0xd4)
    · rw [if_pos h2]
      simp
    · rw [if_neg h2]
      simp

theorem decode_str8_no_out (b : Nat) (input : List Nat) :
    mp_decode_str8 b input ≠ .error .out := by
  rw [mp_decode_str8]
  by_cases h1 : input.length < 2
  · rw [if_pos h1]
    simp
  · rw [if_neg h1]
    by_cases h2 : input.length < 2 + byteAt input 1
    · rw [if_pos h2]
      simp
    · rw [if_neg h2]
      simp

theorem decode_str16_no_out (b : Nat) (input : List Nat) :
    mp_decode_str16 b input ≠ .error .out := by
  rw [mp_decode_str16]
  by_cases h1 : input.length < 3
  · rw [if_pos h1]
    simp
  · rw [if_neg h1]
    by_cases h2 : input.length < 3 + ((byteAt input 1 <<< 8) ||| byteAt input 2)
    · rw [if_pos h2]
      simp
    · rw [if_neg h2]
      simp

theorem decode_ext8_no_out (input : List Nat) :
    mp_decode_ext8 input ≠ .error .out := by
  rw [mp_decode_ext8]
  by_cases h1 : input.length < 3
  · rw [if_pos h1]
    simp
  · rw [if_neg h1]
    by_cases h2 : input.length < 3 + byteAt input 2
    · rw [if_pos h2]
      simp
    · rw [if_neg h2]
      simp

theorem decode_ext16_no_out (input : List Nat) :
    mp_decode_ext16 input ≠ .error .out := by
  rw [mp_decode_ext16]
  by_cases h1 : input.length < 4
  · rw [if_pos h1]
    simp
  · rw [if_neg h1]
    by_cases h2 : input.length < 4 + ((byteAt input 2 <<< 8) ||| byteAt input 3)
    · rw [if_pos h2]
      simp
    · rw [if_neg h2]
      simp

theorem decode_str32_no_out (input : List Nat) :
    mp_decode_str32 input ≠ .error .out := by
  rw [mp_decode_str32]
  by_cases h1 : input.length < 5
  · rw [if_pos h1]
    simp
  · rw [if_neg h1]
    by_cases h2 : (input.drop 5).length < ((byteAt input 1 <<< 24) ||| (byteAt input 2 <<< 16) ||| (byteAt input 3 <<< 8) ||| byteAt input 4)
    · rw [if_pos h2]
      simp
    · rw [if_neg h2]
      simp

theorem decode_ext32_no_out (input : List Nat) :
    mp_decode_ext32 input ≠ .error .out := by
  rw [mp_decode_ext32]
  by_cases h1 : input.length < 6
  · rw [if_pos h1]
    simp
  · rw [if_neg h1]
    by_cases h2 : (input.drop 6).length < ((byteAt input 1 <<< 24) ||| (byteAt input 2 <<< 16) ||| (byteAt input 3 <<< 8) ||| byteAt input 4)
    · rw [if_pos h2]
      simp
    · rw [if_neg h2]
      simp

theorem decode_array_no_out (dv : List Nat → Except MpErr (MpNode × List Nat)) (f : Nat)
    (hdv : ∀ i, i.length < f → dv i ≠ .error .out)
    (hprog : ∀ i n r, dv i = .ok (n, r) → r.length < i.length) :
    ∀ count input, input.length < f → mp_decode_array dv count input ≠ .error .out := by
  intro count
  induction count with
  | zero =>
    intro input hlen
    simp [mp_decode_array]
  | succ c ih =>
    intro input hlen
    rw [mp_decode_array]
    split
    · rename_i e heq
      intro hcon
      simp only [Except.error.injEq] at hcon
      exact hdv input hlen (by rw [heq, hcon])
    · rename_i n r heq
      split
      · rename_i e heq2
        intro hcon
        simp only [Except.error.injEq] at hcon
        have hr := hprog _ _ _ heq
        exact ih r (by omega) (by rw [heq2, hcon])
      · simp

theorem decode_hash_no_out (dv : List Nat → Except MpErr (MpNode × List Nat)) (f : Nat)
    (hdv : ∀ i, i.length < f → dv i ≠ .error .out)
    (hprog : ∀ i n r, dv i = .ok (n, r) → r.length < i.length) :
    ∀ count input, input.length < f → mp_decode_hash dv count input ≠ .error .out := by
  intro count
  induction count with
  | zero =>
    intro input hlen
    simp [mp_decode_hash]
  | succ c ih =>
    intro input hlen
    rw [mp_decode_hash]
    split
    · rename_i e heq
      intro hcon
      simp only [Except.error.injEq] at hcon
      exact hdv input hlen (by rw [heq, hcon])
    · rename_i k r heq
      split
      · rename_i e heq2
        intro hcon
        simp only [Except.error.injEq] at hcon
        have hr := hprog _ _ _ heq
        exact hdv r (by omega) (by rw [heq2, hcon])
      · rename_i v r2 heq2
        split
        · rename_i e heq3
          intro hcon
          simp only [Except.error.injEq] at hcon
          have hr := hprog _ _ _ heq
          have hr2 := hprog _ _ _ heq2
          exact ih r2 (by omega) (by rw [heq3, hcon])
        · simp

theorem decode_arrnode_no_out (dv : List Nat → Except MpErr (MpNode × List Nat)) (f : Nat)
    (hdv : ∀ i, i.length < f → dv i ≠ .error .out)
    (hprog : ∀ i n r, dv i = .ok (n, r) → r.length < i.length)
    (count : Nat) (input : List Nat) (hlen : input.length < f) :
    mp_decode_arrnode dv count input ≠ .error .out := by
  rw [mp_decode_arrnode]
  split
  · rename_i e heq
    intro hcon
    simp only [Except.error.injEq] at hcon
    exact decode_array_no_out dv f hdv hprog count input hlen (by rw [heq, hcon])
  · simp

theorem decode_mapnode_no_out (dv : List Nat → Except MpErr (MpNode × List Nat)) (f : Nat)
    (hdv : ∀ i, i.length < f → dv i ≠ .error .out)
    (hprog : ∀ i n r, dv i = .ok (n, r) → r.length < i.length)
    (count : Nat) (input : List Nat) (hlen : input.length < f) :
    mp_decode_mapnode dv count input ≠ .error .out := by
  rw [mp_decode_mapnode]
  split
  · rename_i e heq
    intro hcon
    simp only [Except.error.injEq] at hcon
    exact decode_hash_no_out dv f hdv hprog count input hlen (by rw [heq, hcon])
  · simp

set_option maxRecDepth 8000 in
theorem decode_value_no_out :
    ∀ fuel input, input.length < fuel → mp_decode_value fuel input ≠ .error .out := by
  intro fuel
  induction fuel with
  | zero => intro input hlen; omega
  | succ f ih =>
    intro input hlen
    match input with
    | [] => simp [mp_decode_value]
    | b :: tl =>
      rw [mp_decode_value]
      have hno : ∀ i, i.length < f → mp_decode_value f i ≠ .error .out := ih
      have hpr : ∀ i n r, mp_decode_value f i = .ok (n, r) → r.length < i.length :=
        fun i n r => decode_value_progress f i n r
      by_cases hb0 : b = 0xcc
      · rw [if_pos hb0]
        exact decode_uint8_no_out _
      · rw [if_neg hb0]
        by_cases hb1 : b = 0xd0
        · rw [if_pos hb1]
          exact decode_int8_no_out _
        · rw [if_neg hb1]
          by_cases hb2 : b = 0xcd
          · rw [if_pos hb2]
            exact decode_uint16_no_out _
          · rw [if_neg hb2]
            by_cases hb3 : b = 0xd1
            · rw [if_pos hb3]
              exact decode_int16_no_out _
            · rw [if_neg hb3]
              by_cases hb4 : b = 0xce
              · rw [if_pos hb4]
                exact decode_uint32_no_out _
              · rw [if_neg hb4]
                by_cases hb5 : b = 0xd2
                · rw [if_pos hb5]
                  exact decode_int32_no_out _
                · rw [if_neg hb5]
                  by_cases hb6 : b = 0xcf
                  · rw [if_pos hb6]
                    exact decode_word64_no_out _
                  · rw [if_neg hb6]
                    by_cases hb7 : b = 0xd3
                    · rw [if_pos hb7]
                      exact decode_word64_no_out _
                    · rw [if_neg hb7]
                      by_cases hb8 : b = 0xc0
                      · rw [if_pos hb8]
                        simp
                      · rw [if_neg hb8]
                        by_cases hb9 : b = 0xc2 ∨ b = 0xc3
                        · rw [if_pos hb9]
                          simp
                        · rw [if_neg hb9]
                          by_cases hb10 : b = 0xca
                          · rw [if_pos hb10]
                            exact decode_flt32_no_out _
                          · rw [if_neg hb10]
                            by_cases hb11 : b = 0xcb
                            · rw [if_pos hb11]
                              exact decode_flt64_no_out _
                            · rw [if_neg hb11]
                              by_cases hb12 : 0xd4 ≤ b ∧ b ≤ 0xd8
                              · rw [if_pos hb12]
                                exact decode_fixext_no_out _ _
                              · rw [if_neg hb12]
                                by_cases hb13 : b = 0xc4 ∨ b = 0xd9
                                · rw [if_pos hb13]
                                  exact decode_str8_no_out _ _
                                · rw [if_neg hb13]
                                  by_cases hb14 : b = 0xc5 ∨ b = 0xda
                                  · rw [if_pos hb14]
                                    exact decode_str16_no_out _ _
                                  · rw [if_neg hb14]
                                    by_cases hb15 : b = 0xc6 ∨ b = 0xdb
                                    · rw [if_pos hb15]
                                      exact decode_str32_no_out _
                                    · rw [if_neg hb15]
                                      by_cases hb16 : b = 0xc7
                                      · rw [if_pos hb16]
                                        exact decode_ext8_no_out _
                                      · rw [if_neg hb16]
                                        by_cases hb17 : b = 0xc8
                                        · rw [if_pos hb17]
                                          exact decode_ext16_no_out _
                                        · rw [if_neg hb17]
                                          by_cases hb18 : b = 0xc9
                                          · rw [if_pos hb18]
                                            exact decode_ext32_no_out _
                                          · rw [if_neg hb18]
                                            by_cases hb19 : b = 0xdc
                                            · rw [if_pos hb19]
                                              by_cases hlen2 : (b :: tl).length < 3
                                              · rw [if_pos hlen2]
                                                simp
                                              · rw [if_neg hlen2]
                                                exact decode_arrnode_no_out (mp_decode_value f) f hno hpr _ _
                                                  (by simp only [List.length_drop, List.length_cons] at *; omega)
                                            · rw [if_neg hb19]
                                              by_cases hb20 : b = 0xdd
                                              · rw [if_pos hb20]
                                                by_cases hlen2 : (b :: tl).length < 5
                                                · rw [if_pos hlen2]
                                                  simp
                                                · rw [if_neg hlen2]
                                                  exact decode_arrnode_no_out (mp_decode_value f) f hno hpr _ _
                                                    (by simp only [List.length_drop, List.length_cons] at *; omega)
                                              · rw [if_neg hb20]
                                                by_cases hb21 : b = 0xde
                                                · rw [if_pos hb21]
                                                  by_cases hlen2 : (b :: tl).length < 3
                                                  · rw [if_pos hlen2]
                                                    simp
                                                  · rw [if_neg hlen2]
                                                    exact decode_mapnode_no_out (mp_decode_value f) f hno hpr _ _
                                                      (by simp only [List.length_drop, List.length_cons] at *; omega)
                                                · rw [if_neg hb21]
                                                  by_cases hb22 : b = 0xdf
                                                  · rw [if_pos hb22]
                                                    by_cases hlen2 : (b :: tl).length < 5
                                                    · rw [if_pos hlen2]
                                                      simp
                                                    · rw [if_neg hlen2]
                                                      exact decode_mapnode_no_out (mp_decode_value f) f hno hpr _ _
                                                        (by simp only [List.length_drop, List.length_cons] at *; omega)
                                                  · rw [if_neg hb22]
                                                    by_cases hb23 : b &&& 0x80 = 0
                                                    · rw [if_pos hb23]
                                                      simp
                                                    · rw [if_neg hb23]
                                                      by_cases hb24 : b &&& 0xe0 = 0xe0
                                                      · rw [if_pos hb24]
                                                        simp
                                                      · rw [if_neg hb24]
                                                        by_cases hb25 : b &&& 0xe0 = 0xa0
                                                        · rw [if_pos hb25]
                                                          exact decode_fixstr_no_out _ _
                                                        · rw [if_neg hb25]
                                                          by_cases hb26 : b &&& 0xf0 = 0x90
                                                          · rw [if_pos hb26]
                                                            exact decode_arrnode_no_out (mp_decode_value f) f hno hpr _ _
                                                              (by simp only [List.length_drop, List.length_cons] at *; omega)
                                                          · rw [if_neg hb26]
                                                            by_cases hb27 : b &&& 0xf0 = 0x80
                                                            · rw [if_pos hb27]
                                                              exact decode_mapnode_no_out (mp_decode_value f) f hno hpr _ _
                                                                (by simp only [List.length_drop, List.length_cons] at *; omega)
                                                            · rw [if_neg hb27]
                                                              simp


theorem unpackLoop_no_out :
    ∀ fuel s, s.length ≤ fuel → mp_unpackLoop fuel s ≠ .error .out := by
  intro fuel
  induction fuel with
  | zero =>
    intro s hlen
    match s with
    | [] => simp [mp_unpackLoop]
    | b :: tl => simp at hlen
  | succ f ih =>
    intro s hlen
    match s with
    | [] => simp [mp_unpackLoop]
    | b :: tl =>
      rw [mp_unpackLoop]
      split
      · rename_i e heq
        intro hcon
        simp only [Except.error.injEq] at hcon
        exact decode_value_no_out ((b :: tl).length + 1) (b :: tl) (by omega) (by rw [heq, hcon])
      · rename_i n rest heq
        split
        · rename_i e heq2
          intro hcon
          simp only [Except.error.injEq] at hcon
          have hr := decode_value_progress _ _ _ _ heq
          simp only [List.length_cons] at hr hlen
          exact ih rest (by omega) (by rw [heq2, hcon])
        · simp

theorem unpackLoop_count :
    ∀ fuel s cnt roots, mp_unpackLoop fuel s = .ok (cnt, roots) →
      roots.length = cnt ∧ (s ≠ [] → 1 ≤ cnt) := by
  intro fuel
  induction fuel with
  | zero =>
    intro s cnt roots h
    match s with
    | [] =>
      simp only [mp_unpackLoop, Except.ok.injEq, Prod.mk.injEq] at h
      obtain ⟨rfl, rfl⟩ := h
      exact ⟨rfl, fun hne => absurd rfl hne⟩
    | b :: tl => simp [mp_unpackLoop] at h
  | succ f ih =>
    intro s cnt roots h
    match s with
    | [] =>
      simp only [mp_unpackLoop, Except.ok.injEq, Prod.mk.injEq] at h
      obtain ⟨rfl, rfl⟩ := h
      exact ⟨rfl, fun hne => absurd rfl hne⟩
    | b :: tl =>
      rw [mp_unpackLoop] at h
      split at h
      · exact absurd h (by simp)
      · rename_i n rest heq
        split at h
        · exact absurd h (by simp)
        · rename_i c rs heq2
          simp only [Except.ok.injEq, Prod.mk.injEq] at h
          obtain ⟨rfl, rfl⟩ := h
          have := (ih rest c rs heq2).1
          refine ⟨by simp [this], fun _ => by omega⟩

/-- C6 (amended): for every input, unpack returns the count of decoded
top-level values — at least 1 — together with the root chain when the
input is nonempty and decoding succeeds; a negative value (−1 for
truncated input, −2 for an unknown header byte) with the tree released
on failure; and 0 with the tree released on EMPTY input, the case the
original claim's success/failure dichotomy does not cover. -/
theorem c6_unpack_status (s : List Nat) :
    (s = [] → msgpack_unpack s = (0, none))
    ∧ (s ≠ [] →
        (∃ (cnt : Nat) (roots : List MpNode),
          msgpack_unpack s = ((cnt : Int), some roots) ∧ 1 ≤ cnt ∧ roots.length = cnt)
        ∨ (msgpack_unpack s = (-1, none) ∨ msgpack_unpack s = (-2, none))) := by
  constructor
  · intro h
    subst h
    rfl
  · intro hne
    cases heq : mp_unpackLoop s.length s with
    | error e =>
      right
      cases e with
      | eof => left; simp [msgpack_unpack, heq, errCode]
      | badfmt => right; simp [msgpack_unpack, heq, errCode]
      | out => exact absurd heq (unpackLoop_no_out s.length s (le_refl _))
    | ok p =>
      obtain ⟨cnt, roots⟩ := p
      have hcr := unpackLoop_count s.length s cnt roots heq
      have h1 : 1 ≤ cnt := hcr.2 hne
      left
      refine ⟨cnt, roots, ?_, h1, hcr.1⟩
      simp only [msgpack_unpack, heq]
      rw [if_neg (by omega)]

/-- Witness for C6 at the empty input. -/
theorem c6_unpack_status_witness : msgpack_unpack [] = (0, none) :=
  (c6_unpack_status []).1 rfl

/-- C6 counterexample to the claim as stated: on the empty input,
`msgpack_unpack` returns 0 — neither a count of at least 1 nor a
negative failure code — and releases the (empty) tree. -/
theorem c6_empty_input_returns_zero :
    msgpack_unpack [] = (0, none)
    ∧ ¬ (1 ≤ (msgpack_unpack []).1 ∨ (msgpack_unpack []).1 < 0) :=
  ⟨rfl, by decide⟩

/-! ## Claim C8: sibling-chain consistency

The decoder's chain construction and the pointer surgery of
`msgpack_detach_item_from_array` / `msgpack_replace_item_in_array` are
modelled at the pointer level: node addresses are naturals, and the
`next` / `prev` fields of all nodes form a pair of partial maps.
`msgpack_delete_item_from_array` is detach followed by `msgpack_free`
of the detached node, which never touches the remaining chain's links,
so the detach result covers deletion as well. -/

/-- The `next` / `prev` pointer fields of every node, indexed by node
address (`none` is a NULL pointer). -/
structure Links where
  next : Nat → Option Nat
  prev : Nat → Option Nat

/-- The index walk `while (c && idx > 0) c = c->next, idx--` shared by
the detach and replace routines. -/
def walkNext (lk : Links) : Option Nat → Int → Option Nat
  | none, _ => none
  | some c, idx =>
    if h : 0 < idx then walkNext lk (lk.next c) (idx - 1) else some c
termination_by _ idx => idx.toNat
decreasing_by omega

/-- Pointer effect of `msgpack_detach_item_from_array`: find the target
by walking, bridge its neighbours' pointers, move the parent's `child`
head if the target was the head, and clear the detached node's links.
Returns the updated maps and the new head. -/
def msgpack_detach_links (lk : Links) (head : Option Nat) (idx : Int) : Links × Option Nat :=
  match walkNext lk head idx with
  | none => (lk, head)
  | some c =>
    let nx := lk.next c
    let pv := lk.prev c
    let next1 := match pv with
      | some p => Function.update lk.next p nx
      | none => lk.next
    let prev1 := match nx with
      | some q => Function.update lk.prev q pv
      | none => lk.prev
    let head1 := if head = some c then nx else head
    (⟨Function.update next1 c none, Function.update prev1 c none⟩, head1)

/-- Pointer effect of `msgpack_replace_item_in_array`: splice node `m`
in place of the target (`newitem->next/prev` take the target's links,
the neighbours are re-pointed at `m`, the head moves when the target was
the head), then clear the freed node's links.  The `none` arm of the
final `pv` match models the NULL dereference `newitem->prev->next` the C
would perform if the target were a head with a stale `prev`. -/
def msgpack_replace_links (lk : Links) (head : Option Nat) (idx : Int) (m : Nat) :
    Links × Option Nat :=
  match walkNext lk head idx with
  | none => (lk, head)
  | some c =>
    let nx := lk.next c
    let pv := lk.prev c
    let next1 := Function.update lk.next m nx
    let prev1 := Function.update lk.prev m pv
    let prev2 := match nx with
      | some q => Function.update prev1 q (some m)
      | none => prev1
    let head1 := if head = some c then some m else head
    let next2 :=
      if head = some c then next1
      else match pv with
        | some p => Function.update next1 p (some m)
        | none => next1
    (⟨Function.update next2 c none, Function.update prev2 c none⟩, head1)

/-- All pointers NULL: the state of freshly `calloc`ed nodes. -/
def emptyLinks : Links := ⟨fun _ => none, fun _ => none⟩

/-- The linking loop of `mp_decode_array` (also used by
`mp_decode_hash`): `child->next = new_item; new_item->prev = child`. -/
def linkChainAux : Links → Nat → List Nat → Links
  | lk, _, [] => lk
  | lk, c, x :: xs =>
      linkChainAux ⟨Function.update lk.next c (some x), Function.update lk.prev x (some c)⟩ x xs

/-- Pointer state of the sibling chain after `mp_decode_array` decodes
the given (distinct) node addresses in order. -/
def mp_decode_array_links : List Nat → Links
  | [] => emptyLinks
  | x :: xs => linkChainAux emptyLinks x xs

/-- `seg lk pr cur l post`: starting from pointer `cur` with incoming
previous node `pr`, the chain traverses exactly the nodes of `l` in
order — each node's `prev` points at its predecessor — and ends with
pointer value `post`. -/
def seg (lk : Links) : Option Nat → Option Nat → List Nat → Option Nat → Prop
  | _, cur, [], post => cur = post
  | pr, cur, x :: xs, post => cur = some x ∧ lk.prev x = pr ∧ seg lk (some x) (lk.next x) xs post

/-- A consistent sibling chain: from the parent's `child` head the
nodes of `l` are linked in order, the head's `prev` is NULL and the last
node's `next` is NULL. -/
def chainOK (lk : Links) (head : Option Nat) (l : List Nat) : Prop :=
  seg lk none head l none

/-- The `prev` value in force after traversing `l` (its last node, or
the incoming one for an empty list). -/
def lastPr : List Nat → Option Nat → Option Nat
  | [], pr => pr
  | x :: xs, _ => lastPr xs (some x)

theorem seg_congr {lk lk' : Links} :
    ∀ (l : List Nat) (pr cur post : Option Nat),
      (∀ x ∈ l, lk'.next x = lk.next x ∧ lk'.prev x = lk.prev x) →
      seg lk pr cur l post → seg lk' pr cur l post := by
  intro l
  induction l with
  | nil => intro pr cur post hag h; exact h
  | cons x xs ih =>
    intro pr cur post hag h
    obtain ⟨h1, h2, h3⟩ := h
    have hx := hag x (by simp)
    refine ⟨h1, by rw [hx.2]; exact h2, ?_⟩
    rw [hx.1]
    exact ih (some x) (lk.next x) post (fun z hz => hag z (by simp [hz])) h3

theorem seg_append {lk : Links} :
    ∀ (l1 l2 : List Nat) (pr cur post : Option Nat),
      seg lk pr cur (l1 ++ l2) post ↔
        ∃ mid, seg lk pr cur l1 mid ∧ seg lk (lastPr l1 pr) mid l2 post := by
  intro l1
  induction l1 with
  | nil =>
    intro l2 pr cur post
    constructor
    · intro h
      exact ⟨cur, rfl, h⟩
    · rintro ⟨mid, hm, h⟩
      rw [seg] at hm
      subst hm
      exact h
  | cons x xs ih =>
    intro l2 pr cur post
    constructor
    · rintro ⟨h1, h2, h3⟩
      obtain ⟨mid, ha, hb⟩ := (ih l2 (some x) (lk.next x) post).1 h3
      exact ⟨mid, ⟨h1, h2, ha⟩, hb⟩
    · rintro ⟨mid, ⟨h1, h2, ha⟩, hb⟩
      exact ⟨h1, h2, (ih l2 (some x) (lk.next x) post).2 ⟨mid, ha, hb⟩⟩

theorem seg_walk {lk : Links} :
    ∀ (l : List Nat) (pr cur post : Option Nat), seg lk pr cur l post →
      ∀ i : Nat, i < l.length → walkNext lk cur (i : Int) = l[i]? := by
  intro l
  induction l with
  | nil => intro pr cur post h i hi; simp at hi
  | cons x xs ih =>
    intro pr cur post h i hi
    obtain ⟨h1, h2, h3⟩ := h
    subst h1
    match i with
    | 0 =>
      simp only [walkNext]
      rw [dif_neg (by omega)]
      simp
    | j + 1 =>
      simp only [walkNext]
      rw [dif_pos (by omega)]
      have hj : ((j + 1 : Nat) : Int) - 1 = (j : Int) := by omega
      rw [hj, List.getElem?_cons_succ]
      exact ih (some x) (lk.next x) post h3 j (by simp at hi; omega)

theorem linkChainAux_next_eq :
    ∀ (xs : List Nat) (lk : Links) (c z : Nat), z ≠ c → z ∉ xs →
      (linkChainAux lk c xs).next z = lk.next z := by
  intro xs
  induction xs with
  | nil => intro lk c z h1 h2; rfl
  | cons x xs2 ih =>
    intro lk c z h1 h2
    rw [linkChainAux]
    rw [ih _ x z (by simp at h2; tauto) (by simp at h2; tauto)]
    simp [Function.update]
    intro hzc
    exact absurd hzc h1

theorem linkChainAux_prev_eq :
    ∀ (xs : List Nat) (lk : Links) (c z : Nat), z ∉ xs →
      (linkChainAux lk c xs).prev z = lk.prev z := by
  intro xs
  induction xs with
  | nil => intro lk c z h2; rfl
  | cons x xs2 ih =>
    intro lk c z h2
    rw [linkChainAux]
    rw [ih _ x z (by simp at h2; tauto)]
    simp [Function.update]
    intro hzx
    exact absurd hzx (by simp at h2; tauto)

theorem linkChainAux_seg :
    ∀ (xs : List Nat) (lk : Links) (c : Nat), c ∉ xs → xs.Nodup →
      (∀ y, (y = c ∨ y ∈ xs) → lk.next y = none) →
      seg (linkChainAux lk c xs) (lk.prev c) (some c) (c :: xs) none := by
  intro xs
  induction xs with
  | nil =>
    intro lk c hc hnd hinv
    exact ⟨rfl, rfl, hinv c (Or.inl rfl)⟩
  | cons x xs2 ih =>
    intro lk c hc hnd hinv
    rw [linkChainAux]
    set lk2 : Links :=
      ⟨Function.update lk.next c (some x), Function.update lk.prev x (some c)⟩ with hlk2
    have hcx : c ≠ x := by simp at hc; tauto
    have hcxs2 : c ∉ xs2 := by simp at hc; tauto
    have hxxs2 : x ∉ xs2 := by simp at hnd; tauto
    have hinv2 : ∀ y, (y = x ∨ y ∈ xs2) → lk2.next y = none := by
      intro y hy
      have hyc : y ≠ c := by
        rintro rfl
        cases hy with
        | inl h => exact hcx h
        | inr h => exact hcxs2 h
      simp only [hlk2, Function.update]
      rw [dif_neg hyc]
      exact hinv y (Or.inr (by cases hy with
        | inl h => simp [h]
        | inr h => simp [h]))
    have hseg2 := ih lk2 x hxxs2 (by simp at hnd; tauto) hinv2
    have hprevx : lk2.prev x = some c := by
      simp [hlk2, Function.update]
    rw [hprevx] at hseg2
    refine ⟨rfl, ?_, ?_⟩
    · rw [linkChainAux_prev_eq xs2 lk2 x c hcxs2]
      simp [hlk2, Function.update, hcx]
    · have hnextc : (linkChainAux lk2 x xs2).next c = some x := by
        rw [linkChainAux_next_eq xs2 lk2 x c hcx hcxs2]
        simp [hlk2, Function.update]
      rw [hnextc]
      exact hseg2

theorem mp_decode_array_links_chainOK (l : List Nat) (hnd : l.Nodup) :
    chainOK (mp_decode_array_links l) l.head? l := by
  match l with
  | [] => exact rfl
  | x :: xs =>
    rw [mp_decode_array_links, chainOK]
    have := linkChainAux_seg xs emptyLinks x (by simp at hnd; tauto) (by simp at hnd; tauto)
      (fun y hy => rfl)
    simpa [emptyLinks] using this

theorem lastPr_concat : ∀ (t : List Nat) (pr : Option Nat) (p : Nat),
    lastPr (t ++ [p]) pr = some p := by
  intro t
  induction t with
  | nil => intro pr p; rfl
  | cons a t2 ih => intro pr p; exact ih (some a) p

theorem nodup_parts (l1 l2 : List Nat) (c : Nat) (h : (l1 ++ c :: l2).Nodup) :
    c ∉ l1 ∧ c ∉ l2 ∧ (∀ z ∈ l1, z ∉ l2) ∧ l1.Nodup ∧ l2.Nodup := by
  have h1 := h.of_append_left
  have h2 := h.of_append_right
  have hd := List.disjoint_of_nodup_append h
  rw [List.nodup_cons] at h2
  refine ⟨fun hc => hd hc (by simp), h2.1, fun z hz hz2 => hd hz (by simp [hz2]), h1, h2.2⟩


theorem detach_preserves (l1 l2 : List Nat) (c : Nat) (lk : Links)
    (hnd : (l1 ++ c :: l2).Nodup)
    (hok : chainOK lk (l1 ++ c :: l2).head? (l1 ++ c :: l2)) :
    chainOK (msgpack_detach_links lk (l1 ++ c :: l2).head? (l1.length : Int)).1
            (msgpack_detach_links lk (l1 ++ c :: l2).head? (l1.length : Int)).2
            (l1 ++ l2) := by
  obtain ⟨hcl1, hcl2, hdisj, hl1nd, hl2nd⟩ := nodup_parts l1 l2 c hnd
  set head := (l1 ++ c :: l2).head? with hhead
  rw [chainOK, seg_append] at hok
  obtain ⟨mid, hseg1, hseg2⟩ := hok
  have hmid : mid = some c := hseg2.1
  subst hmid
  have hprevc : lk.prev c = lastPr l1 none := hseg2.2.1
  have hsegl2 : seg lk (some c) (lk.next c) l2 none := hseg2.2.2
  have hwalk : walkNext lk head (l1.length : Int) = some c := by
    have h1 : (l1.length) < (l1 ++ c :: l2).length := by simp
    have := seg_walk (l1 ++ c :: l2) none head none (by
      rw [seg_append]
      exact ⟨some c, hseg1, hseg2⟩) l1.length h1
    rw [this, List.getElem?_append_right (le_refl _)]
    simp
  rw [msgpack_detach_links, hwalk]
  simp only []
  rcases List.eq_nil_or_concat l1 with hl1 | ⟨t, p, hl1⟩
  · subst hl1
    have hheadc : head = some c := hseg2.1
    match l2, hsegl2, hcl2, hl2nd with
    | [], hsegl2, _, _ =>
      have hnx : lk.next c = none := hsegl2
      rw [hnx, hprevc]
      simp only [lastPr]
      rw [if_pos hheadc]
      rfl
    | y :: ys, hsegl2, hcl2, hl2nd =>
      obtain ⟨hny, hpy, hys⟩ := hsegl2
      rw [hny, hprevc]
      simp only [lastPr]
      rw [if_pos hheadc]
      have hyc : y ≠ c := fun h => hcl2 (h ▸ List.mem_cons_self y ys)
      have hyys : y ∉ ys := (List.nodup_cons.1 hl2nd).1
      refine ⟨rfl, ?_, ?_⟩
      · simp only [Function.update_noteq hyc, Function.update_same]
      · simp only [Function.update_noteq hyc]
        refine seg_congr ys (some y) (lk.next y) none ?_ hys
        intro z hz
        have hzc : z ≠ c := fun h => hcl2 (h ▸ List.mem_cons_of_mem y hz)
        have hzy : z ≠ y := fun h => hyys (h ▸ hz)
        exact ⟨by simp only [Function.update_noteq hzc],
          by simp only [Function.update_noteq hzc, Function.update_noteq hzy]⟩
  · rw [List.concat_eq_append] at hl1
    subst hl1
    rw [seg_append] at hseg1
    obtain ⟨mid2, hsegt, hsegp⟩ := hseg1
    have hmid2 : mid2 = some p := hsegp.1
    subst hmid2
    have hprevp : lk.prev p = lastPr t none := hsegp.2.1
    have hnextp : lk.next p = some c := hsegp.2.2
    have hpt : p ∉ t := by
      have h := hl1nd
      rw [List.nodup_append] at h
      intro hp
      exact h.2.2 hp (by simp)
    have hpc : p ≠ c := fun h => hcl1 (h ▸ (by simp : p ∈ t ++ [p]))
    have hheadne : head ≠ some c := by
      match t, hsegt with
      | [], hsegt =>
        rw [show head = some p from hsegt]
        simp [hpc]
      | a :: t2, hsegt =>
        rw [show head = some a from hsegt.1]
        intro h
        simp only [Option.some.injEq] at h
        exact hcl1 (h ▸ (by simp : a ∈ (a :: t2) ++ [p]))
    rw [hprevc, lastPr_concat, if_neg hheadne]
    simp only []
    rw [chainOK, seg_append]
    refine ⟨lk.next c, ?_, ?_⟩
    · rw [seg_append]
      refine ⟨some p, ?_, ?_⟩
      · refine seg_congr t none head (some p) ?_ hsegt
        intro z hz
        have hz1 : z ∈ t ++ [p] := by simp [hz]
        have hzc : z ≠ c := fun h => hcl1 (h ▸ hz1)
        have hzp : z ≠ p := fun h => hpt (h ▸ hz)
        constructor
        · simp only [Function.update_noteq hzc, Function.update_noteq hzp]
        · match l2, hsegl2, hdisj with
          | [], hsegl2, hdisj =>
            rw [show lk.next c = none from hsegl2]
            simp only [Function.update_noteq hzc]
          | y :: ys, hsegl2, hdisj =>
            rw [show lk.next c = some y from hsegl2.1]
            have hzy : z ≠ y := fun h => hdisj z hz1 (h ▸ List.mem_cons_self y ys)
            simp only [Function.update_noteq hzc, Function.update_noteq hzy]
      · refine ⟨rfl, ?_, ?_⟩
        · match l2, hsegl2, hdisj with
          | [], hsegl2, hdisj =>
            rw [show lk.next c = none from hsegl2]
            simp only [Function.update_noteq hpc]
            exact hprevp
          | y :: ys, hsegl2, hdisj =>
            rw [show lk.next c = some y from hsegl2.1]
            have hpy2 : p ≠ y := fun h => hdisj p (by simp) (h ▸ List.mem_cons_self y ys)
            simp only [Function.update_noteq hpc, Function.update_noteq hpy2]
            exact hprevp
        · simp only [seg, Function.update_noteq hpc, Function.update_same]
    · rw [lastPr_concat]
      match l2, hsegl2, hcl2, hl2nd, hdisj with
      | [], hsegl2, _, _, _ =>
        rw [show lk.next c = none from hsegl2]
        rfl
      | y :: ys, hsegl2, hcl2, hl2nd, hdisj =>
        obtain ⟨hny, hpy2, hys⟩ := hsegl2
        rw [hny]
        simp only []
        have hyc : y ≠ c := fun h => hcl2 (h ▸ List.mem_cons_self y ys)
        have hyp : y ≠ p := fun h => hdisj p (by simp) (h ▸ List.mem_cons_self y ys)
        have hyys : y ∉ ys := (List.nodup_cons.1 hl2nd).1
        refine ⟨rfl, ?_, ?_⟩
        · simp only [Function.update_noteq hyc, Function.update_same]
        · simp only [Function.update_noteq hyc, Function.update_noteq hyp]
          refine seg_congr ys (some y) (lk.next y) none ?_ hys
          intro z hz
          have hzc : z ≠ c := fun h => hcl2 (h ▸ List.mem_cons_of_mem y hz)
          have hzy : z ≠ y := fun h => hyys (h ▸ hz)
          have hzp : z ≠ p := fun h => hdisj p (by simp) (h ▸ List.mem_cons_of_mem y hz)
          constructor
          · simp only [Function.update_noteq hzc, Function.update_noteq hzp]
          · simp only [Function.update_noteq hzc, Function.update_noteq hzy]

theorem replace_preserves (l1 l2 : List Nat) (c m : Nat) (lk : Links)
    (hnd : (l1 ++ c :: l2).Nodup)
    (hm : m ∉ l1 ++ c :: l2)
    (hok : chainOK lk (l1 ++ c :: l2).head? (l1 ++ c :: l2)) :
    chainOK (msgpack_replace_links lk (l1 ++ c :: l2).head? (l1.length : Int) m).1
            (msgpack_replace_links lk (l1 ++ c :: l2).head? (l1.length : Int) m).2
            (l1 ++ m :: l2) := by
  obtain ⟨hcl1, hcl2, hdisj, hl1nd, hl2nd⟩ := nodup_parts l1 l2 c hnd
  have hml1 : m ∉ l1 := fun h => hm (by simp [h])
  have hml2 : m ∉ l2 := fun h => hm (by simp [h])
  have hmc : m ≠ c := fun h => hm (by simp [h])
  set head := (l1 ++ c :: l2).head? with hhead
  rw [chainOK, seg_append] at hok
  obtain ⟨mid, hseg1, hseg2⟩ := hok
  have hmid : mid = some c := hseg2.1
  subst hmid
  have hprevc : lk.prev c = lastPr l1 none := hseg2.2.1
  have hsegl2 : seg lk (some c) (lk.next c) l2 none := hseg2.2.2
  have hwalk : walkNext lk head (l1.length : Int) = some c := by
    have h1 : (l1.length) < (l1 ++ c :: l2).length := by simp
    have := seg_walk (l1 ++ c :: l2) none head none (by
      rw [seg_append]
      exact ⟨some c, hseg1, hseg2⟩) l1.length h1
    rw [this, List.getElem?_append_right (le_refl _)]
    simp
  rw [msgpack_replace_links, hwalk]
  simp only []
  rcases List.eq_nil_or_concat l1 with hl1 | ⟨t, p, hl1⟩
  · subst hl1
    have hheadc : head = some c := hseg2.1
    rw [if_pos hheadc, if_pos hheadc, hprevc]
    simp only [lastPr]
    match l2, hsegl2, hcl2, hl2nd, hml2 with
    | [], hsegl2, _, _, _ =>
      rw [show lk.next c = none from hsegl2]
      refine ⟨rfl, ?_, ?_⟩
      · simp only [Function.update_noteq hmc, Function.update_same]
      · simp only [seg, Function.update_noteq hmc, Function.update_same]
    | y :: ys, hsegl2, hcl2, hl2nd, hml2 =>
      obtain ⟨hny, hpy, hys⟩ := hsegl2
      rw [hny]
      simp only []
      have hyc : y ≠ c := fun h => hcl2 (h ▸ List.mem_cons_self y ys)
      have hym : y ≠ m := fun h => hml2 (h ▸ List.mem_cons_self y ys)
      have hyys : y ∉ ys := (List.nodup_cons.1 hl2nd).1
      refine ⟨rfl, ?_, ?_, ?_, ?_⟩
      · simp only [Function.update_noteq hmc, Function.update_noteq hym.symm,
          Function.update_same]
      · simp only [Function.update_noteq hmc, Function.update_same]
      · simp only [Function.update_noteq hyc, Function.update_same]
      · simp only [Function.update_noteq hyc, Function.update_noteq hym]
        refine seg_congr ys (some y) (lk.next y) none ?_ hys
        intro z hz
        have hzc : z ≠ c := fun h => hcl2 (h ▸ List.mem_cons_of_mem y hz)
        have hzy : z ≠ y := fun h => hyys (h ▸ hz)
        have hzm : z ≠ m := fun h => hml2 (h ▸ List.mem_cons_of_mem y hz)
        constructor
        · simp only [Function.update_noteq hzc, Function.update_noteq hzm]
        · simp only [Function.update_noteq hzc, Function.update_noteq hzy,
            Function.update_noteq hzm]
  · rw [List.concat_eq_append] at hl1
    subst hl1
    rw [seg_append] at hseg1
    obtain ⟨mid2, hsegt, hsegp⟩ := hseg1
    have hmid2 : mid2 = some p := hsegp.1
    subst hmid2
    have hprevp : lk.prev p = lastPr t none := hsegp.2.1
    have hnextp : lk.next p = some c := hsegp.2.2
    have hpt : p ∉ t := by
      have h := hl1nd
      rw [List.nodup_append] at h
      intro hp
      exact h.2.2 hp (by simp)
    have hpc : p ≠ c := fun h => hcl1 (h ▸ (by simp : p ∈ t ++ [p]))
    have hpm : p ≠ m := fun h => hml1 (h ▸ (by simp : p ∈ t ++ [p]))
    have hheadne : head ≠ some c := by
      match t, hsegt with
      | [], hsegt =>
        rw [show head = some p from hsegt]
        simp [hpc]
      | a :: t2, hsegt =>
        rw [show head = some a from hsegt.1]
        intro h
        simp only [Option.some.injEq] at h
        exact hcl1 (h ▸ (by simp : a ∈ (a :: t2) ++ [p]))
    rw [hprevc, lastPr_concat, if_neg hheadne, if_neg hheadne]
    simp only []
    rw [chainOK, seg_append]
    refine ⟨some m, ?_, ?_⟩
    · rw [seg_append]
      refine ⟨some p, ?_, ?_⟩
      · refine seg_congr t none head (some p) ?_ hsegt
        intro z hz
        have hz1 : z ∈ t ++ [p] := by simp [hz]
        have hzc : z ≠ c := fun h => hcl1 (h ▸ hz1)
        have hzp : z ≠ p := fun h => hpt (h ▸ hz)
        have hzm : z ≠ m := fun h => hml1 (h ▸ hz1)
        constructor
        · simp only [Function.update_noteq hzc, Function.update_noteq hzp,
            Function.update_noteq hzm]
        · match l2, hsegl2, hdisj with
          | [], hsegl2, hdisj =>
            rw [show lk.next c = none from hsegl2]
            simp only [Function.update_noteq hzc, Function.update_noteq hzm]
          | y :: ys, hsegl2, hdisj =>
            rw [show lk.next c = some y from hsegl2.1]
            have hzy : z ≠ y := fun h => hdisj z hz1 (h ▸ List.mem_cons_self y ys)
            simp only [Function.update_noteq hzc, Function.update_noteq hzy,
              Function.update_noteq hzm]
      · refine ⟨rfl, ?_, ?_⟩
        · match l2, hsegl2, hdisj with
          | [], hsegl2, hdisj =>
            rw [show lk.next c = none from hsegl2]
            simp only [Function.update_noteq hpc, Function.update_noteq hpm]
            exact hprevp
          | y :: ys, hsegl2, hdisj =>
            rw [show lk.next c = some y from hsegl2.1]
            have hpy2 : p ≠ y := fun h => hdisj p (by simp) (h ▸ List.mem_cons_self y ys)
            simp only [Function.update_noteq hpc, Function.update_noteq hpy2,
              Function.update_noteq hpm]
            exact hprevp
        · simp only [seg, Function.update_noteq hpc, Function.update_same]
    · rw [lastPr_concat]
      refine ⟨rfl, ?_, ?_⟩
      · match l2, hsegl2, hml2 with
        | [], hsegl2, hml2 =>
          rw [show lk.next c = none from hsegl2]
          simp only [Function.update_noteq hmc, Function.update_noteq (Ne.symm hpm),
            Function.update_same]
        | y :: ys, hsegl2, hml2 =>
          rw [show lk.next c = some y from hsegl2.1]
          have hym : y ≠ m := fun h => hml2 (h ▸ List.mem_cons_self y ys)
          simp only [Function.update_noteq hmc, Function.update_noteq (Ne.symm hpm),
            Function.update_noteq hym.symm, Function.update_same]
      · match l2, hsegl2, hml2, hcl2, hl2nd, hdisj with
        | [], hsegl2, _, _, _, _ =>
          rw [show lk.next c = none from hsegl2]
          simp only [seg, Function.update_noteq hmc, Function.update_noteq (Ne.symm hpm),
            Function.update_same]
        | y :: ys, hsegl2, hml2, hcl2, hl2nd, hdisj =>
          obtain ⟨hny, hpy2, hys⟩ := hsegl2
          rw [hny]
          simp only []
          have hyc : y ≠ c := fun h => hcl2 (h ▸ List.mem_cons_self y ys)
          have hym : y ≠ m := fun h => hml2 (h ▸ List.mem_cons_self y ys)
          have hyp : y ≠ p := fun h => hdisj p (by simp) (h ▸ List.mem_cons_self y ys)
          have hyys : y ∉ ys := (List.nodup_cons.1 hl2nd).1
          refine ⟨?_, ?_, ?_⟩
          · simp only [Function.update_noteq hmc, Function.update_noteq (Ne.symm hpm),
              Function.update_same]
          · simp only [Function.update_noteq hyc, Function.update_same]
          · simp only [Function.update_noteq hyc, Function.update_noteq hym,
              Function.update_noteq hyp]
            refine seg_congr ys (some y) (lk.next y) none ?_ hys
            intro z hz
            have hzc : z ≠ c := fun h => hcl2 (h ▸ List.mem_cons_of_mem y hz)
            have hzy : z ≠ y := fun h => hyys (h ▸ hz)
            have hzm : z ≠ m := fun h => hml2 (h ▸ List.mem_cons_of_mem y hz)
            have hzp : z ≠ p := fun h => hdisj p (by simp) (h ▸ List.mem_cons_of_mem y hz)
            constructor
            · simp only [Function.update_noteq hzc, Function.update_noteq hzp,
                Function.update_noteq hzm]
            · simp only [Function.update_noteq hzc, Function.update_noteq hzy,
                Function.update_noteq hzm]

theorem chainOK_localAux {lk : Links} :
    ∀ (l : List Nat) (pr cur : Option Nat), seg lk pr cur l none →
      (∀ q, pr = some q → lk.next q = cur) →
      ∀ x ∈ l, (∀ p2, lk.prev x = some p2 → lk.next p2 = some x)
               ∧ (∀ y, lk.next x = some y → lk.prev y = some x) := by
  intro l
  induction l with
  | nil => intro pr cur h hpr x hx; simp at hx
  | cons x xs ih =>
    intro pr cur h hpr z hz
    obtain ⟨hcur, hprev, hseg⟩ := h
    subst hcur
    rcases List.mem_cons.1 hz with rfl | hz2
    · constructor
      · intro p2 hp2
        exact hpr p2 (hprev ▸ hp2)
      · intro y hy
        match xs, hseg with
        | [], hseg =>
          rw [show lk.next z = none from hseg] at hy
          exact absurd hy (by simp)
        | w :: ws, hseg =>
          rw [hseg.1] at hy
          simp only [Option.some.injEq] at hy
          subst hy
          exact hseg.2.1
    · exact ih (some x) (lk.next x) hseg (by rintro q ⟨rfl⟩; rfl) z hz2

theorem exists_split :
    ∀ (l : List Nat) (i : Nat), i < l.length →
      ∃ l1 c l2, l = l1 ++ c :: l2 ∧ l1.length = i := by
  intro l
  induction l with
  | nil => intro i hi; simp at hi
  | cons x xs ih =>
    intro i hi
    match i with
    | 0 => exact ⟨[], x, xs, rfl, rfl⟩
    | j + 1 =>
      obtain ⟨l1, c, l2, hl, hlen⟩ := ih j (by simp at hi; omega)
      exact ⟨x :: l1, c, l2, by simp [hl], by simp [hlen]⟩

theorem eraseIdx_append_len :
    ∀ (l1 : List Nat) (c : Nat) (l2 : List Nat),
      (l1 ++ c :: l2).eraseIdx l1.length = l1 ++ l2 := by
  intro l1
  induction l1 with
  | nil => intro c l2; rfl
  | cons a t ih => intro c l2; simp only [List.cons_append, List.length_cons,
      List.eraseIdx_cons_succ, ih]

theorem set_append_len :
    ∀ (l1 : List Nat) (c : Nat) (l2 : List Nat) (m : Nat),
      (l1 ++ c :: l2).set l1.length m = l1 ++ m :: l2 := by
  intro l1
  induction l1 with
  | nil => intro c l2 m; rfl
  | cons a t ih =>
    intro c l2 m
    simp only [List.cons_append, List.length_cons]
    show a :: (t ++ c :: l2).set t.length m = a :: (t ++ m :: l2)
    rw [ih]

/-- C8: sibling-chain consistency is an invariant.  For every list of
distinct node addresses: (1) the chain built by the decoder's linking
loop is consistent; (2) detaching any in-range index (hence also
deleting, since freeing the detached node leaves the rest untouched)
preserves consistency of the remaining chain; (3) replacing any
in-range index with a fresh node preserves consistency; and (4) a
consistent chain satisfies the claim's local laws — the head's `prev`
is null, every node's `prev.next` returns to the node, and every
node's `next.prev` returns to the node. -/
theorem c8_sibling_chain_invariant (l : List Nat) (hnd : l.Nodup) :
    chainOK (mp_decode_array_links l) l.head? l
    ∧ (∀ (lk : Links) (i : Nat), i < l.length → chainOK lk l.head? l →
        chainOK (msgpack_detach_links lk l.head? (i : Int)).1
                (msgpack_detach_links lk l.head? (i : Int)).2 (l.eraseIdx i))
    ∧ (∀ (lk : Links) (i m : Nat), i < l.length → m ∉ l → chainOK lk l.head? l →
        chainOK (msgpack_replace_links lk l.head? (i : Int) m).1
                (msgpack_replace_links lk l.head? (i : Int) m).2 (l.set i m))
    ∧ (∀ (lk : Links) (head2 : Option Nat), chainOK lk head2 l →
        (∀ h0, head2 = some h0 → lk.prev h0 = none)
        ∧ (∀ x ∈ l, ∀ p2, lk.prev x = some p2 → lk.next p2 = some x)
        ∧ (∀ x ∈ l, ∀ y, lk.next x = some y → lk.prev y = some x)) := by
  refine ⟨mp_decode_array_links_chainOK l hnd, ?_, ?_, ?_⟩
  · intro lk i hi hok
    obtain ⟨l1, c, l2, rfl, hlen⟩ := exists_split l i hi
    subst hlen
    rw [eraseIdx_append_len]
    exact detach_preserves l1 l2 c lk hnd hok
  · intro lk i m hi hm hok
    obtain ⟨l1, c, l2, rfl, hlen⟩ := exists_split l i hi
    subst hlen
    rw [set_append_len]
    exact replace_preserves l1 l2 c m lk hnd hm hok
  · intro lk head2 hok
    refine ⟨?_, ?_, ?_⟩
    · intro h0 hh0
      match l, hok with
      | [], hok => rw [hok] at hh0; exact absurd hh0 (by simp)
      | x :: xs, hok =>
        rw [hh0] at hok
        obtain ⟨hcur, hprev, -⟩ := hok
        simp only [Option.some.injEq] at hcur
        rw [hcur]
        exact hprev
    · intro x hx p2 hp2
      exact (chainOK_localAux l none head2 hok (by rintro q ⟨⟩) x hx).1 p2 hp2
    · intro x hx y hy
      exact (chainOK_localAux l none head2 hok (by rintro q ⟨⟩) x hx).2 y hy

/-- Witness for C8 on the three-node chain 0, 1, 2 built by the
decoder's linking loop. -/
theorem c8_sibling_chain_invariant_witness :
    chainOK (mp_decode_array_links [0, 1, 2]) [0, 1, 2].head? [0, 1, 2] :=
  (c8_sibling_chain_invariant [0, 1, 2] (by decide)).1

end Cmsgpack
